import Mathlib

/-!
Verification development for two subsystems of a blockchain node's storage
layer:

* the FlatState value inlining migration
  (`core/store/src/flat/inlining_migration.rs`), and
* the state sync dump loop (`nearcore/src/state_sync.rs`).

Byte strings are modelled as `List Nat`, stores as association lists ordered
by the lexicographic byte order (mirroring RocksDB iteration order), and the
I/O environment (trie reads, chain queries, external storage, the random
part selection and the wall clock) as explicit oracle parameters.
-/

namespace NearStore

/-- Raw byte strings (RocksDB keys and values, hashes, shard uids). -/
abbrev Bytes := List Nat

/-- Little-endian encoding of a `u32` length field, as in borsh. -/
def toLE4 (n : Nat) : Bytes :=
  [n % 256, n / 256 % 256, n / 256 ^ 2 % 256, n / 256 ^ 3 % 256]

/-- Decoding of a little-endian `u32` from four bytes. -/
def fromLE4 (b0 b1 b2 b3 : Nat) : Nat :=
  b0 + 256 * (b1 + 256 * (b2 + 256 * b3))

/-- A FlatState value: either a reference `{hash, length}` into the
content-addressed `State` column, or the bytes stored inline
(`FlatStateValue` in the source). -/
inductive FlatStateValue : Type where
  | Ref (hash : Bytes) (length : Nat)
  | Inlined (bytes : Bytes)
deriving DecidableEq

/-- Modelled from the spec: borsh serialization of `FlatStateValue`
(`try_to_vec` in the source; the codec itself lives outside the provided
sources). One discriminant byte, then `hash(32) ‖ length(u32 LE)` for `Ref`
or `length(u32 LE) ‖ bytes` for `Inlined`. -/
def FlatStateValue.try_to_vec : FlatStateValue → Bytes
  | .Ref hash length => 0 :: hash ++ toLE4 length
  | .Inlined bytes => 1 :: toLE4 bytes.length ++ bytes

/-- Modelled from the spec: borsh deserialization of `FlatStateValue`
(`try_from_slice` in the source). Fails on an unknown discriminant, a
truncated payload, or leftover bytes. -/
def FlatStateValue.try_from_slice (v : Bytes) : Option FlatStateValue :=
  match v with
  | 0 :: rest =>
      if rest.length = 36 then
        some (.Ref (rest.take 32)
          (fromLE4 (rest.getD 32 0) (rest.getD 33 0) (rest.getD 34 0) (rest.getD 35 0)))
      else none
  | 1 :: b0 :: b1 :: b2 :: b3 :: bs =>
      if bs.length = fromLE4 b0 b1 b2 b3 then some (.Inlined bs) else none
  | _ => none

/-- Modelled from the spec: `INLINE_DISK_VALUE_THRESHOLD` (defined in
`flat/types.rs`, outside the provided sources; the spec names a small
constant such as 4096). None of the theorems below depend on the value. -/
def INLINE_DISK_VALUE_THRESHOLD : Nat := 4096

/-- Modelled from the spec: `decode_flat_state_db_key` (defined in
`flat/store_helper.rs`, outside the provided sources). A FlatState db key is
`shard_uid(8 bytes) ‖ trie_key`; decoding fails on a shorter key. -/
def decode_flat_state_db_key (key : Bytes) : Option (Bytes × Bytes) :=
  if 8 ≤ key.length then some (key.take 8, key.drop 8) else none

/-- Strict lexicographic order on byte strings, the RocksDB key order. -/
def lexLt : Bytes → Bytes → Bool
  | [], [] => false
  | [], _ :: _ => true
  | _ :: _, [] => false
  | a :: s, b :: t => a < b || (a == b && lexLt s t)

/-- A column of the store: an association list of `(key, value)` pairs,
listed in iteration order. The store invariant (keys strictly increasing in
`lexLt`) is a hypothesis of the theorems that need it. -/
abbrev Store := List (Bytes × Bytes)

/-- Point lookup of a key's current value (first match). -/
def lookupStore : Store → Bytes → Option Bytes
  | [], _ => none
  | (k, v) :: rest, key => if k = key then some v else lookupStore rest key

/-- Membership test of an optional lower (inclusive) and upper (exclusive)
bound, as accepted by the RocksDB range iterator. -/
def inRangeOpt (lo hi : Option Bytes) (k : Bytes) : Bool :=
  (match lo with
   | none => true
   | some l => !lexLt k l) &&
  (match hi with
   | none => true
   | some h => lexLt k h)

/-- Model of `Store::iter_range`: all current entries between the optional bounds,
in store order. -/
def iter_range (store : Store) (lo hi : Option Bytes) : Store :=
  store.filter (fun kv => inRangeOpt lo hi kv.1)

/-- Model of `StoreUpdate::set` restricted to an existing key: the batch built by the
migration only rewrites keys it just read from the column. -/
def setValue (store : Store) (key newValue : Bytes) : Store :=
  store.map (fun kv => if kv.1 = key then (key, newValue) else kv)

/-- Application of a committed write batch to the column. -/
def applyWrites (store : Store) (writes : List (Bytes × Bytes)) : Store :=
  writes.foldl (fun s kv => setValue s kv.1 kv.2) store

/-- The content-addressed trie storage backing `Ref` entries:
`TrieDBStorage::new(store, shard_uid).retrieve_raw_bytes(hash)` is modelled
as a read-only function of `(shard_uid, hash)`; `none` is a failed read. -/
abbrev TrieStorage := Bytes → Bytes → Option Bytes

/-- A request queued on the value reader's channel (`ReadValueRequest`). -/
structure ReadValueRequest : Type where
  shard_uid : Bytes
  value_hash : Bytes
deriving DecidableEq

/-- The mapping returned by `receive_all` (`HashMap<CryptoHash, Vec<u8>>`),
modelled as an association list with at most one entry per key. -/
abbrev HashMapL := List (Bytes × Bytes)

/-- Model of `HashMap::insert`: replaces any existing entry for the key. -/
def insertA (m : HashMapL) (h v : Bytes) : HashMapL :=
  (h, v) :: m.filter (fun p => !(p.1 = h : Bool))

/-- Model of `HashMap::get`. -/
def lookupA : HashMapL → Bytes → Option Bytes
  | [], _ => none
  | (k, v) :: rest, h => if k = h then some v else lookupA rest h

/-- Model of `StateValueReader::submit`: queues a request; the outstanding counter is
the length of the queue. -/
def submit (pending : List ReadValueRequest) (shard_uid value_hash : Bytes) :
    List ReadValueRequest :=
  pending ++ [⟨shard_uid, value_hash⟩]

/-- The receive loop of `StateValueReader::receive_all`: one response per
outstanding request, worker reads resolved through the trie storage, failed
reads skipped. Responses are processed in submission order; the key set of
the result does not depend on arrival order because reads are a pure
function of the (read-only) trie storage. -/
def receive_all_loop (trie : TrieStorage) : List ReadValueRequest → HashMapL → HashMapL
  | [], m => m
  | r :: rest, m =>
      receive_all_loop trie rest
        (match trie r.shard_uid r.value_hash with
         | some bytes => insertA m r.value_hash bytes
         | none => m)

/-- Model of `StateValueReader::receive_all`: drains every outstanding request and
returns the hash-to-bytes mapping together with the drained (empty) request
queue, whose length is the outstanding counter. -/
def receive_all (trie : TrieStorage) (pending : List ReadValueRequest) :
    HashMapL × List ReadValueRequest :=
  (receive_all_loop trie pending [], [])

/-- The scan state of one migration batch: submitted requests plus the
running `(min_key, max_key)` range over the selected keys. -/
structure ScanState : Type where
  requests : List ReadValueRequest
  min_key : Option Bytes
  max_key : Option Bytes
deriving DecidableEq

/-- The request submitted for one scanned entry, if any: the key must
decode, the value must decode to a `Ref`, and the `Ref`'s length must be at
most `INLINE_DISK_VALUE_THRESHOLD`; otherwise the entry is skipped. -/
def reqOf (kv : Bytes × Bytes) : Option ReadValueRequest :=
  match decode_flat_state_db_key kv.1 with
  | none => none
  | some (shard_uid, _) =>
      match FlatStateValue.try_from_slice kv.2 with
      | some (.Ref hash length) =>
          if length ≤ INLINE_DISK_VALUE_THRESHOLD then some ⟨shard_uid, hash⟩ else none
      | _ => none

/-- One step of the scan phase of `inline_flat_state_values`: on a selected
entry, submit its request, set `min_key` if unset and advance `max_key`. -/
def scanStep (st : ScanState) (kv : Bytes × Bytes) : ScanState :=
  match reqOf kv with
  | some r =>
      { requests := st.requests ++ [r]
        min_key := some (st.min_key.getD kv.1)
        max_key := some kv.1 }
  | none => st

/-- The scan phase over one batch of entries. -/
def scanBatch (batch : List (Bytes × Bytes)) : ScanState :=
  batch.foldl scanStep ⟨[], none, none⟩

/-- The write batch built by the commit phase: re-read the column over the
given range, and for each entry that still decodes to a `Ref` whose hash is
present in the resolved map, write back the inlined resolved bytes. -/
def commitWrites (store : Store) (hash_to_value : HashMapL) (lo hi : Option Bytes) :
    List (Bytes × Bytes) :=
  (iter_range store lo hi).filterMap (fun kv =>
    match FlatStateValue.try_from_slice kv.2 with
    | some (.Ref hash _) =>
        (lookupA hash_to_value hash).map
          (fun value => (kv.1, (FlatStateValue.Inlined value).try_to_vec))
    | _ => none)

/-- One batch of `inline_flat_state_values`: scan the batch, resolve the
submitted hashes, and — when anything resolved — commit the re-read range
`[min_key, max_key ‖ 0x00)` under paused updates. `cur` is the current
column contents at commit time. -/
def runBatch (trie : TrieStorage) (cur : Store) (batch : List (Bytes × Bytes)) : Store :=
  let s := scanBatch batch
  let hash_to_value := (receive_all trie s.requests).1
  if hash_to_value.isEmpty then cur
  else
    let upper_bound_key := s.max_key.map (fun v => v ++ [0])
    applyWrites cur (commitWrites cur hash_to_value s.min_key upper_bound_key)

/-- Fuel-indexed chunking of the scan iterator, chunk size `n + 1`; the fuel
only needs to dominate the list length. -/
def chunksGo (n : Nat) : Nat → List α → List (List α)
  | _, [] => []
  | 0, l => [l]
  | fuel + 1, x :: xs => (x :: xs.take n) :: chunksGo n fuel (xs.drop n)

/-- Model of `Iterator::chunks(batch_size)`: the scan split into consecutive batches
of `batch_size` entries (the last one possibly shorter). `batch_size = 0`
panics in the source; theorems assume `0 < batch_size`. -/
def toBatches (batch_size : Nat) (l : List α) : List (List α) :=
  chunksGo (batch_size - 1) l.length l

/-- Model of `inline_flat_state_values(store, manager, threads, batch_size)`: process
the column in batches. The thread count only affects parallelism, not the
result, and is not a parameter of the model. -/
def inline_flat_state_values (trie : TrieStorage) (store : Store) (batch_size : Nat) :
    Store :=
  (toBatches batch_size store).foldl (runBatch trie) store


/-- The key recorded by the scan for a selected entry (used to
characterize `min_key`/`max_key`). -/
def selKey (kv : Bytes × Bytes) : Option Bytes :=
  (reqOf kv).map (fun _ => kv.1)

/-- The value the commit phase leaves at a key of the re-read range, as a
function of the resolved mapping and the range bounds: a still-decodable
`Ref` with a resolved hash becomes the inlined bytes, everything else is
untouched (re-statement of one `commitWrites`-plus-`applyWrites` step used
to characterize `runBatch`). -/
def commitValue (m : HashMapL) (lo hi : Option Bytes) (k v : Bytes) : Bytes :=
  if inRangeOpt lo hi k then
    match FlatStateValue.try_from_slice v with
    | some (.Ref hash _) =>
        match lookupA m hash with
        | some value => (FlatStateValue.Inlined value).try_to_vec
        | none => v
    | _ => v
  else v

/-- The value an entry of a batch holds after that batch has been
processed. -/
def batchValue (trie : TrieStorage) (b : Store) (kv : Bytes × Bytes) : Bytes :=
  let s := scanBatch b
  let m := (receive_all trie s.requests).1
  if m.isEmpty then kv.2
  else commitValue m s.min_key (s.max_key.map (fun v => v ++ [0])) kv.1 kv.2

/-- The effect of one migration batch on its own entries. -/
def batchApply (trie : TrieStorage) (b : Store) : Store :=
  b.map (fun kv => (kv.1, batchValue trie b kv))

def c2Hash : Bytes := List.replicate 32 0

def c1Shard : Bytes := List.replicate 8 0

def c1HashA : Bytes := List.replicate 32 0

def c1HashB : Bytes := List.replicate 31 0 ++ [1]

def c1Trie : TrieStorage := fun _ h =>
  if h = c1HashA then some [9] else if h = c1HashB then some [7] else none

def c1CexStore : Store :=
  [(c1Shard ++ [0], (FlatStateValue.Ref c1HashA 1).try_to_vec),
   (c1Shard ++ [1],
     (FlatStateValue.Ref c1HashA (INLINE_DISK_VALUE_THRESHOLD + 1)).try_to_vec),
   (c1Shard ++ [2], (FlatStateValue.Ref c1HashB 1).try_to_vec)]

def c1WitStore : Store := [(c1Shard ++ [0], (FlatStateValue.Ref c1HashA 1).try_to_vec)]

def c9WitStore : Store :=
  [(c1Shard ++ [0], (FlatStateValue.Ref c1HashA 1).try_to_vec),
   (c1Shard ++ [1], (FlatStateValue.Ref c1HashB 1).try_to_vec)]
end NearStore

namespace StateSyncDump

open NearStore (Bytes)

/-- Helper splitting a filename at underscores (accumulator reversed). -/
def splitUnderscoreGo : List Char → List Char → List (List Char)
  | [], acc => [acc.reverse]
  | c :: cs, acc =>
      if c = '_' then acc.reverse :: splitUnderscoreGo cs []
      else splitUnderscoreGo cs (c :: acc)

/-- Splitting a filename at every underscore. -/
def splitUnderscore (s : List Char) : List (List Char) :=
  splitUnderscoreGo s []

/-- Parsing of a nonempty all-digit segment. -/
def digitsVal : List Char → Nat → Option Nat
  | [], acc => some acc
  | c :: cs, acc =>
      if c.isDigit then digitsVal cs (acc * 10 + (c.toNat - 48)) else none

/-- Parsing of a decimal number from a filename segment. -/
def parseNatDigits (s : List Char) : Option Nat :=
  if s.isEmpty then none else digitsVal s 0

/-- Modelled from the spec: `get_part_id_from_filename` (in
`near_client::sync::state`, outside the provided sources). A part filename
is `state_part_<pid>_of_<num>`; the part id is the third segment. -/
def get_part_id_from_filename (file_name : List Char) : Option Nat :=
  match splitUnderscore file_name with
  | [a, b, pid, c, num] =>
      if a = "state".toList ∧ b = "part".toList ∧ c = "of".toList then
        (parseNatDigits pid).bind (fun p => (parseNatDigits num).map (fun _ => p))
      else none
  | _ => none

/-- Modelled from the spec: `is_part_filename` (in
`near_client::sync::state`, outside the provided sources): whether a listed
filename has the part filename format. -/
def is_part_filename (file_name : List Char) : Bool :=
  (get_part_id_from_filename file_name).isSome

/-- Model of `extract_part_id_from_part_file_name`: asserts `is_part_filename` and
unwraps the parsed id. The panic of the `assert!`/`unwrap` is modelled as
`none`. -/
def extract_part_id_from_part_file_name (file_name : List Char) : Option Nat :=
  if is_part_filename file_name then get_part_id_from_filename file_name else none

/-- Model of `get_missing_part_ids_for_epoch` applied to the filenames returned by
the external listing: the ids in `[0, total_parts)` not parsed from the
listing. A filename on which `extract_part_id_from_part_file_name` panics
makes the whole computation abort (`none`); the listing's own I/O error is
the caller's `none` before this function is reached. -/
def get_missing_part_ids_for_epoch (file_names : List (List Char)) (total_parts : Nat) :
    Option (List Nat) :=
  if !file_names.isEmpty then
    if file_names.all is_part_filename then
      some ((List.range total_parts).filter (fun i =>
        !(file_names.filterMap extract_part_id_from_part_file_name).contains i))
    else none
  else some (List.range total_parts)

/-- The oracle inputs consumed by one iteration of the inner part-dumping
loop: the `keep_running` flag, the truncated whole-second reading
`timer.elapsed().as_secs()` of the wall clock, the index drawn by
`select_random_part_id_with_index`, the outcome of
`obtain_and_store_state_part` (`none` is an error), and the outcome of
`external.put_state_part`. -/
structure LoopObs : Type where
  keep_running : Bool
  elapsed_secs : Nat
  selected_idx : Nat
  obtained_part : Option Bytes
  upload_ok : Bool

/-- Negation of the loop guard
`keep_running && timer.elapsed().as_secs() <= STATE_DUMP_ITERATION_TIME_LIMIT_SECS
&& !parts_to_dump.is_empty()`; `limit` stands for the (source-external)
constant `STATE_DUMP_ITERATION_TIME_LIMIT_SECS`. -/
def stop_check (limit : Nat) (o : LoopObs) (parts : List Nat) : Bool :=
  !(o.keep_running && decide (o.elapsed_secs ≤ limit) && !parts.isEmpty)

/-- Model of `Vec::swap_remove(i)`: replace the element at `i` with the last element
and pop. -/
def swapRemove (l : List Nat) (i : Nat) : List Nat :=
  (l.set i (l.getLastD 0)).dropLast

/-- The body of one inner-loop iteration, after the guard has passed:
obtain-and-store error breaks out of the loop; upload failure continues
without removal; success removes the drawn index by `swap_remove`. Returns
the new working set and whether the body broke out. The drawn index is
reduced modulo the set size, matching `rng.gen_range(0..len)`. -/
def dump_iteration (o : LoopObs) (parts : List Nat) : List Nat × Bool :=
  match o.obtained_part with
  | none => (parts, true)
  | some _ =>
      if o.upload_ok then (swapRemove parts (o.selected_idx % parts.length), false)
      else (parts, false)

/-- The inner part-dumping loop, fuel-indexed: checks the guard at every
iteration boundary, then runs the body; returns the final working set and
the number of the iteration at which the loop exited. -/
def dumpLoopGo (limit : Nat) (obs : Nat → LoopObs) : Nat → Nat → List Nat → List Nat × Nat
  | 0, i, parts => (parts, i)
  | fuel + 1, i, parts =>
      if stop_check limit (obs i) parts then (parts, i)
      else
        let r := dump_iteration (obs i) parts
        if r.2 then (r.1, i)
        else dumpLoopGo limit obs fuel (i + 1) r.1

/-- The per-iteration working sets induced by running the loop body
whenever the guard passes (used to state when the loop exits). -/
def loopTrace (limit : Nat) (obs : Nat → LoopObs) (parts0 : List Nat) : Nat → List Nat
  | 0 => parts0
  | i + 1 =>
      let p := loopTrace limit obs parts0 i
      if stop_check limit (obs i) p then p else (dump_iteration (obs i) p).1

/-- The exit condition exactly as the claim states it, with the elapsed
time compared by `≥` against the limit. -/
def stop_check_ge (limit : Nat) (o : LoopObs) (parts : List Nat) : Bool :=
  !o.keep_running || decide (limit ≤ o.elapsed_secs) || parts.isEmpty

/-- The per-shard persistent progress record (`StateSyncDumpProgress`);
epoch ids, block hashes and sync hashes are abstract `Nat` identifiers. -/
inductive StateSyncDumpProgress : Type where
  | InProgress (epoch_id : Nat) (epoch_height : Nat) (sync_hash : Nat)
  | AllDumped (epoch_id : Nat) (epoch_height : Nat) (num_parts : Option Nat)
deriving DecidableEq

/-- The epoch height carried by a progress record. -/
def StateSyncDumpProgress.height : StateSyncDumpProgress → Nat
  | .InProgress _ h _ => h
  | .AllDumped _ h _ => h

/-- The chain-side observations consumed by `check_new_epoch` and
`start_dumping` in one iteration: the head's epoch id, the epoch height
reported by `epoch_manager.get_epoch_info(head.epoch_id)`, the sync hash
derived from the last final block and its epoch id, the result of
`shard_tracker.care_about_shard(account_id, sync_prev_prev_hash, shard_id,
true)`, the part count derived from the state header, and whether all these
chain queries succeeded. -/
structure ChainObs : Type where
  head_epoch_id : Nat
  head_epoch_height : Nat
  sync_hash : Nat
  sync_hash_epoch_id : Nat
  cares_about_shard : Bool
  num_parts : Nat
  chain_ok : Bool

/-- Model of `start_dumping(epoch_id, sync_hash, shard_id, ...)`: writes
`InProgress` when the shard is cared about, else `AllDumped` with
`num_parts = Some(0)`. The outer `Option` is the `Result` (`none` = `Err`),
the inner one is `Ok(None)` versus `Ok(Some(_))`. -/
def start_dumping (epoch_id sync_hash : Nat) (obs : ChainObs) :
    Option (Option StateSyncDumpProgress) :=
  if obs.chain_ok then
    if obs.cares_about_shard then
      some (some (.InProgress epoch_id obs.head_epoch_height sync_hash))
    else
      some (some (.AllDumped epoch_id obs.head_epoch_height (some 0)))
  else none

/-- Model of `check_new_epoch(epoch_id, ...)` with `epoch_id` the last fully dumped
epoch: nothing to do when the head (or the sync hash's epoch) still equals
it, otherwise dispatch to `start_dumping`. -/
def check_new_epoch (epoch_id : Option Nat) (obs : ChainObs) :
    Option (Option StateSyncDumpProgress) :=
  if !obs.chain_ok then none
  else if some obs.head_epoch_id = epoch_id then some none
  else if some obs.sync_hash_epoch_id = epoch_id then some none
  else start_dumping obs.head_epoch_id obs.sync_hash obs

/-- The oracle inputs of one iteration of the `state_sync_dump` loop:
the `keep_running` flag at the loop head, whether the progress read failed
with a non-`DBNotFound` error, the chain observations, whether
`get_in_progress_data` succeeded, the external listing (`none` is a listing
I/O error), the inner loop's time limit, fuel and per-iteration oracles,
and whether `set_state_sync_dump_progress` succeeds. -/
structure IterObs : Type where
  keep_running : Bool
  read_err : Bool
  chain : ChainObs
  in_progress_data_ok : Bool
  listing : Option (List (List Char))
  limit : Nat
  loop_fuel : Nat
  loop_obs : Nat → LoopObs
  write_ok : Bool

/-- The `match progress` dispatch of one `state_sync_dump` iteration,
computing the next state of the state machine. The second component records
whether the part-dumping loop branch ran (the only place any state part is
obtained, stored, or uploaded). -/
def compute_next_state (stored : Option StateSyncDumpProgress) (o : IterObs) :
    Option (Option StateSyncDumpProgress) × Bool :=
  match stored with
  | some (.AllDumped epoch_id _ _) => (check_new_epoch (some epoch_id) o.chain, false)
  | none => (check_new_epoch none o.chain, false)
  | some (.InProgress epoch_id epoch_height sync_hash) =>
      if !o.in_progress_data_ok then (none, false)
      else
        let missing_parts :=
          match o.listing with
          | none => none
          | some file_names => get_missing_part_ids_for_epoch file_names o.chain.num_parts
        match missing_parts with
        | none => (none, false)
        | some [] =>
            (some (some (.AllDumped epoch_id epoch_height (some o.chain.num_parts))), false)
        | some (p :: parts_rest) =>
            let parts_to_dump :=
              (dumpLoopGo o.limit o.loop_obs o.loop_fuel 0 (p :: parts_rest)).1
            if parts_to_dump.isEmpty then
              (some (some (.AllDumped epoch_id epoch_height (some o.chain.num_parts))), true)
            else
              (some (some (.InProgress epoch_id epoch_height sync_hash)), true)

/-- The persisted progress after one full loop iteration: a read error
deletes the record; a computed `Ok(Some(next))` is persisted when the write
succeeds; `Ok(None)` and `Err` leave it unchanged. -/
def dump_iterate (stored : Option StateSyncDumpProgress) (o : IterObs) :
    Option StateSyncDumpProgress :=
  if !o.keep_running then stored
  else if o.read_err then none
  else
    match (compute_next_state stored o).1 with
    | some (some next) => if o.write_ok then some next else stored
    | _ => stored

/-- The progress record written (successfully persisted) by one iteration,
if any. -/
def write_of (stored : Option StateSyncDumpProgress) (o : IterObs) :
    Option StateSyncDumpProgress :=
  if !o.keep_running then none
  else if o.read_err then none
  else
    match (compute_next_state stored o).1 with
    | some (some next) => if o.write_ok then some next else none
    | _ => none

/-- The persisted progress of one shard's dumper task along a run, starting
from no record. -/
def progress_trace (obs : Nat → IterObs) : Nat → Option StateSyncDumpProgress
  | 0 => none
  | n + 1 => dump_iterate (progress_trace obs n) (obs n)


def c4WitnessObs : Nat → LoopObs := fun _ =>
  { keep_running := true, elapsed_secs := 0, selected_idx := 0,
    obtained_part := some [9], upload_ok := true }

def c4CexObs : Nat → LoopObs := fun _ =>
  { keep_running := true, elapsed_secs := 5, selected_idx := 0,
    obtained_part := some [9], upload_ok := true }

def c8WitnessObs : ChainObs :=
  { head_epoch_id := 0, head_epoch_height := 3, sync_hash := 1,
    sync_hash_epoch_id := 0, cares_about_shard := false, num_parts := 5,
    chain_ok := true }

def c8WitnessIter : IterObs :=
  { keep_running := true, read_err := false, chain := c8WitnessObs,
    in_progress_data_ok := true, listing := some [], limit := 5,
    loop_fuel := 3, loop_obs := fun _ => ⟨true, 0, 0, none, true⟩,
    write_ok := true }

def c7WitnessObs : Nat → IterObs := fun i =>
  { keep_running := true, read_err := false,
    chain :=
      { head_epoch_id := i, head_epoch_height := i, sync_hash := i,
        sync_hash_epoch_id := i, cares_about_shard := false, num_parts := 4,
        chain_ok := true },
    in_progress_data_ok := true, listing := some [], limit := 5,
    loop_fuel := 3, loop_obs := fun _ => ⟨true, 0, 0, none, true⟩,
    write_ok := true }
end StateSyncDump

namespace StateSyncDump

lemma dumpLoopGo_exits_aux (limit : Nat) (obs : Nat → LoopObs) (parts0 : List Nat) (k : Nat)
    (hstop : stop_check limit (obs k) (loopTrace limit obs parts0 k) = true)
    (hbefore : ∀ i, i < k → stop_check limit (obs i) (loopTrace limit obs parts0 i) = false)
    (hnobreak : ∀ i, i < k → (obs i).obtained_part ≠ none) :
    ∀ fuel j, j ≤ k → k - j < fuel →
      dumpLoopGo limit obs fuel j (loopTrace limit obs parts0 j) =
        (loopTrace limit obs parts0 k, k) := by
  intro fuel
  induction fuel with
  | zero => intro j _ h; omega
  | succ fuel ih =>
      intro j hjk hfuel
      rcases Nat.eq_or_lt_of_le hjk with rfl | hlt
      · simp [dumpLoopGo, hstop]
      · have hs := hbefore j hlt
        have hb := hnobreak j hlt
        obtain ⟨b, hob⟩ := Option.ne_none_iff_exists'.mp hb
        have hiter2 : (dump_iteration (obs j) (loopTrace limit obs parts0 j)).2 = false := by
          cases hup : (obs j).upload_ok <;> simp [dump_iteration, hob, hup]
        have htr : (dump_iteration (obs j) (loopTrace limit obs parts0 j)).1 =
            loopTrace limit obs parts0 (j + 1) := by
          simp [loopTrace, hs]
        rw [dumpLoopGo, if_neg (by simp [hs])]
        simp only [hiter2, if_false, htr]
        exact ih (j + 1) hlt (by omega)

/-- C4 (amended): the inner dump loop exits exactly at the first iteration
boundary at which the guard fails — `keep_running` false, elapsed seconds
strictly above the limit, or no parts left — provided no
`obtain_and_store_state_part` error broke the loop earlier. -/
theorem c4_loop_exits_at_first_guard_failure (limit fuel k : Nat) (obs : Nat → LoopObs)
    (parts0 : List Nat)
    (hstop : stop_check limit (obs k) (loopTrace limit obs parts0 k) = true)
    (hbefore : ∀ i, i < k → stop_check limit (obs i) (loopTrace limit obs parts0 i) = false)
    (hnobreak : ∀ i, i < k → (obs i).obtained_part ≠ none)
    (hfuel : k < fuel) :
    dumpLoopGo limit obs fuel 0 parts0 = (loopTrace limit obs parts0 k, k) := by
  have := dumpLoopGo_exits_aux limit obs parts0 k hstop hbefore hnobreak fuel 0
    (Nat.zero_le k) (by omega)
  simpa [loopTrace] using this

theorem c4_witness :
    dumpLoopGo 5 c4WitnessObs 3 0 [7] = (loopTrace 5 c4WitnessObs [7] 1, 1) :=
  c4_loop_exits_at_first_guard_failure 5 3 1 c4WitnessObs [7]
    (by decide) (by decide) (by decide) (by decide)

/-- C4 counterexample: with `keep_running = true`, one part left and the
elapsed time equal to the limit, the claimed condition `elapsed ≥ limit`
already holds at iteration 0, yet the loop does not exit there: the guard
`elapsed ≤ limit` still passes and the body runs. -/
theorem c4_counterexample :
    stop_check_ge 5 (c4CexObs 0) [7] = true ∧
    stop_check 5 (c4CexObs 0) [7] = false ∧
    dumpLoopGo 5 c4CexObs 10 0 [7] ≠ ([7], 0) := by decide

/-- C5: in one inner-loop iteration, an `obtain_and_store_state_part` error
breaks out of the loop with the working set unchanged; an upload failure
continues without removing the drawn part; the drawn part is
`swap_remove`d exactly on a successful upload; and the loop, on a passed
guard followed by an obtain error, exits at that iteration with the set
unchanged. -/
theorem c5_part_error_handling :
    (∀ (o : LoopObs) (parts : List Nat), o.obtained_part = none →
        dump_iteration o parts = (parts, true)) ∧
    (∀ (o : LoopObs) (parts : List Nat) (b : NearStore.Bytes),
        o.obtained_part = some b → o.upload_ok = false →
        dump_iteration o parts = (parts, false)) ∧
    (∀ (o : LoopObs) (parts : List Nat) (b : NearStore.Bytes),
        o.obtained_part = some b → o.upload_ok = true →
        dump_iteration o parts =
          (swapRemove parts (o.selected_idx % parts.length), false)) ∧
    (∀ (limit fuel i : Nat) (obs : Nat → LoopObs) (parts : List Nat),
        stop_check limit (obs i) parts = false → (obs i).obtained_part = none →
        dumpLoopGo limit obs (fuel + 1) i parts = (parts, i)) := by
  refine ⟨?_, ?_, ?_, ?_⟩
  · intro o parts h; simp [dump_iteration, h]
  · intro o parts b h hu; simp [dump_iteration, h, hu]
  · intro o parts b h hu; simp [dump_iteration, h, hu]
  · intro limit fuel i obs parts hs hob
    rw [dumpLoopGo, if_neg (by simp [hs])]
    simp [dump_iteration, hob]

theorem c5_witness :
    dump_iteration ⟨true, 0, 0, none, true⟩ [3, 4] = ([3, 4], true) ∧
    dump_iteration ⟨true, 0, 0, some [9], false⟩ [3, 4] = ([3, 4], false) ∧
    dump_iteration ⟨true, 0, 1, some [9], true⟩ [3, 4] =
      (swapRemove [3, 4] (1 % 2), false) ∧
    dumpLoopGo 5 (fun _ => ⟨true, 0, 0, none, true⟩) 3 0 [3, 4] = ([3, 4], 0) :=
  ⟨c5_part_error_handling.1 _ _ rfl,
   c5_part_error_handling.2.1 _ _ _ rfl rfl,
   c5_part_error_handling.2.2.1 _ _ _ rfl rfl,
   c5_part_error_handling.2.2.2 5 2 0 _ _ (by decide) rfl⟩

end StateSyncDump

namespace StateSyncDump

/-- C6 (amended): when every listed filename is a valid part filename,
`get_missing_part_ids_for_epoch` returns exactly the ids in
`[0, total_parts)` not among the ids parsed from the listing; in particular
an empty listing yields all of `[0, total_parts)`. -/
theorem c6_missing_part_ids (file_names : List (List Char)) (total_parts : Nat)
    (hvalid : ∀ f ∈ file_names, is_part_filename f = true) :
    get_missing_part_ids_for_epoch file_names total_parts =
      some ((List.range total_parts).filter (fun i =>
        !(file_names.filterMap get_part_id_from_filename).contains i)) := by
  cases file_names with
  | nil => simp [get_missing_part_ids_for_epoch]
  | cons f fs =>
      have hall : (f :: fs).all is_part_filename = true := by
        rw [List.all_eq_true]; exact hvalid
      have hmap : (f :: fs).filterMap extract_part_id_from_part_file_name =
          (f :: fs).filterMap get_part_id_from_filename := by
        apply List.filterMap_congr
        intro x hx
        simp [extract_part_id_from_part_file_name, hvalid x hx]
      simp [get_missing_part_ids_for_epoch, hall, hmap]

theorem c6_witness :
    get_missing_part_ids_for_epoch ["state_part_1_of_3".toList] 3 =
      some ((List.range 3).filter (fun i =>
        !(["state_part_1_of_3".toList].filterMap get_part_id_from_filename).contains i)) :=
  c6_missing_part_ids _ 3 (by decide)

/-- C6 counterexample: a listing containing a foreign filename makes the
computation abort (`none`) rather than return the set difference the claim
promises for every listing. -/
theorem c6_counterexample :
    get_missing_part_ids_for_epoch ["garbage".toList] 2 = none ∧
    (none : Option (List Nat)) ≠ some [0, 1] := by decide

/-- C10: a listed filename that is not a valid part filename makes
`extract_part_id_from_part_file_name` panic (modelled as `none`), aborting
the whole missing-part computation for the iteration; the computation is
total exactly under the precondition that every listed filename is a valid
part filename. -/
theorem c10_foreign_file_aborts :
    (∀ f : List Char, is_part_filename f = false →
        extract_part_id_from_part_file_name f = none) ∧
    (∀ (fns : List (List Char)) (total : Nat) (f : List Char), f ∈ fns →
        is_part_filename f = false →
        get_missing_part_ids_for_epoch fns total = none) ∧
    (∀ (fns : List (List Char)) (total : Nat),
        (∀ f ∈ fns, is_part_filename f = true) →
        (get_missing_part_ids_for_epoch fns total).isSome = true) := by
  refine ⟨?_, ?_, ?_⟩
  · intro f h; simp [extract_part_id_from_part_file_name, h]
  · intro fns total f hf hbad
    have hne : fns ≠ [] := List.ne_nil_of_mem hf
    have hall : fns.all is_part_filename = false := by
      rw [List.all_eq_false]
      exact ⟨f, hf, by simp [hbad]⟩
    simp [get_missing_part_ids_for_epoch, hne, hall,
      List.isEmpty_eq_false_iff_exists_mem.mpr ⟨f, hf⟩]
  · intro fns total hvalid
    cases fns with
    | nil => simp [get_missing_part_ids_for_epoch]
    | cons f fs =>
        have hall : (f :: fs).all is_part_filename = true := by
          rw [List.all_eq_true]; exact hvalid
        simp [get_missing_part_ids_for_epoch, hall]

theorem c10_witness :
    extract_part_id_from_part_file_name "garbage".toList = none ∧
    get_missing_part_ids_for_epoch ["state_part_0_of_2".toList, "garbage".toList] 2 = none ∧
    (get_missing_part_ids_for_epoch ["state_part_0_of_2".toList] 2).isSome = true :=
  ⟨c10_foreign_file_aborts.1 _ (by decide),
   c10_foreign_file_aborts.2.1 _ 2 "garbage".toList (by decide) (by decide),
   c10_foreign_file_aborts.2.2 _ 2 (by decide)⟩

/-- C8: with the chain queries succeeding, `start_dumping` records
`AllDumped{epoch_id, epoch_height, num_parts = Some(0)}` when the shard is
not cared about and `InProgress{epoch_id, epoch_height, sync_hash}` when it
is; and no iteration dispatched from an absent or `AllDumped` progress
record ever runs the part-dumping loop (the only code path that obtains,
stores, or uploads a part). -/
theorem c8_start_dumping_shard_tracking (epoch_id sync_hash : Nat) (obs : ChainObs)
    (hok : obs.chain_ok = true) :
    (obs.cares_about_shard = false →
        start_dumping epoch_id sync_hash obs =
          some (some (.AllDumped epoch_id obs.head_epoch_height (some 0)))) ∧
    (obs.cares_about_shard = true →
        start_dumping epoch_id sync_hash obs =
          some (some (.InProgress epoch_id obs.head_epoch_height sync_hash))) ∧
    (∀ (stored : Option StateSyncDumpProgress) (io : IterObs),
        (stored = none ∨ ∃ e h n, stored = some (.AllDumped e h n)) →
        (compute_next_state stored io).2 = false) := by
  refine ⟨?_, ?_, ?_⟩
  · intro hc; simp [start_dumping, hok, hc]
  · intro hc; simp [start_dumping, hok, hc]
  · intro stored io hst
    rcases hst with rfl | ⟨e, h, n, rfl⟩ <;> simp [compute_next_state]

theorem c8_witness :
    start_dumping 0 1 c8WitnessObs =
      some (some (.AllDumped 0 c8WitnessObs.head_epoch_height (some 0))) ∧
    (compute_next_state (some (.AllDumped 0 3 (some 0))) c8WitnessIter).2 = false :=
  ⟨(c8_start_dumping_shard_tracking 0 1 c8WitnessObs rfl).1 rfl,
   (c8_start_dumping_shard_tracking 0 1 c8WitnessObs rfl).2.2 _ c8WitnessIter
     (Or.inr ⟨0, 3, some 0, rfl⟩)⟩

end StateSyncDump

namespace NearStore

lemma lookupA_filter_ne (m : HashMapL) (h h' : Bytes) (hne : h' ≠ h) :
    lookupA (m.filter (fun p => !(p.1 = h : Bool))) h' = lookupA m h' := by
  induction m with
  | nil => rfl
  | cons p t ih =>
      obtain ⟨a, b⟩ := p
      by_cases hp : a = h
      · subst hp
        have hah : ¬a = h' := fun e => hne e.symm
        simp [List.filter_cons, lookupA, hah, ih]
      · simp only [List.filter_cons]
        by_cases ha : a = h'
        · simp [hp, lookupA, ha, hne]
        · simp [hp, lookupA, ha, ih]

lemma lookupA_insertA (m : HashMapL) (h v h' : Bytes) :
    lookupA (insertA m h v) h' = if h' = h then some v else lookupA m h' := by
  unfold insertA
  by_cases hh : h' = h
  · simp [lookupA, hh]
  · have hh' : ¬h = h' := fun e => hh e.symm
    simp [lookupA, hh, hh', lookupA_filter_ne m h h' hh]

lemma receive_all_loop_lookup_isSome (trie : TrieStorage) :
    ∀ (rest : List ReadValueRequest) (acc : HashMapL) (h : Bytes),
      (lookupA (receive_all_loop trie rest acc) h).isSome =
        (rest.any (fun r => r.value_hash == h && (trie r.shard_uid h).isSome) ||
          (lookupA acc h).isSome) := by
  intro rest
  induction rest with
  | nil => intro acc h; simp [receive_all_loop]
  | cons r t ih =>
      intro acc h
      rw [receive_all_loop]
      rcases htr : trie r.shard_uid r.value_hash with _ | b
      · by_cases hh : r.value_hash = h
        · subst hh
          simp [ih, htr, List.any_cons]
        · simp [ih, List.any_cons, hh, Bool.or_assoc]
      · by_cases hh : r.value_hash = h
        · subst hh
          simp [ih, htr, List.any_cons, lookupA_insertA]
        · have hh' : ¬h = r.value_hash := fun e => hh e.symm
          simp [ih, List.any_cons, hh, hh', lookupA_insertA, Bool.or_assoc]

lemma keys_nodup_insertA (m : HashMapL) (h v : Bytes)
    (hm : (m.map Prod.fst).Nodup) : ((insertA m h v).map Prod.fst).Nodup := by
  unfold insertA
  rw [List.map_cons, List.nodup_cons]
  refine ⟨?_, ?_⟩
  · intro hmem
    obtain ⟨p, hp, hfst⟩ := List.mem_map.mp hmem
    have h2 := (List.mem_filter.mp hp).2
    rw [hfst] at h2
    simp at h2
  · exact hm.sublist ((List.filter_sublist m).map Prod.fst)

lemma receive_all_loop_keys_nodup (trie : TrieStorage) :
    ∀ (rest : List ReadValueRequest) (acc : HashMapL),
      (acc.map Prod.fst).Nodup → ((receive_all_loop trie rest acc).map Prod.fst).Nodup := by
  intro rest
  induction rest with
  | nil => intro acc h; simpa [receive_all_loop] using h
  | cons r t ih =>
      intro acc hacc
      rw [receive_all_loop]
      rcases htr : trie r.shard_uid r.value_hash with _ | b
      · exact ih acc hacc
      · exact ih _ (keys_nodup_insertA acc r.value_hash b hacc)

/-- C3: after any sequence of `submit`s followed by `receive_all`, the keys
of the returned mapping are exactly the submitted hashes whose trie-store
read succeeds (failed reads are absent), each hash occurs at most once as a
key (duplicate submissions collapse), and the outstanding-request queue is
drained — its length, the outstanding counter, is zero. -/
theorem c3_receive_all_exact_keys (trie : TrieStorage) (pending : List ReadValueRequest) :
    (∀ h : Bytes, (lookupA (receive_all trie pending).1 h).isSome = true ↔
        ∃ r ∈ pending, r.value_hash = h ∧ (trie r.shard_uid h).isSome = true) ∧
    ((receive_all trie pending).1.map Prod.fst).Nodup ∧
    (receive_all trie pending).2.length = 0 := by
  refine ⟨?_, receive_all_loop_keys_nodup trie pending [] (by simp), rfl⟩
  intro h
  show (lookupA (receive_all_loop trie pending []) h).isSome = true ↔ _
  rw [receive_all_loop_lookup_isSome]
  simp [List.any_eq_true, lookupA]

lemma lookupStore_of_mem_nodup {l : Store} {k v : Bytes}
    (hmem : (k, v) ∈ l) (hnd : (l.map Prod.fst).Nodup) : lookupStore l k = some v := by
  induction l with
  | nil => cases hmem
  | cons p t ih =>
      obtain ⟨a, b⟩ := p
      rw [List.map_cons, List.nodup_cons] at hnd
      rcases List.mem_cons.mp hmem with heq | hmem'
      · injection heq with h1 h2
        subst h1; subst h2
        simp [lookupStore]
      · have hka : ¬a = k := fun e => hnd.1 (List.mem_map.mpr ⟨(k, v), hmem', e.symm⟩)
        simp [lookupStore, hka, ih hmem' hnd.2]

/-- C2: the commit phase's write batch, built from a re-read of the range
under paused updates, writes a key only if the key's current value in the
re-read store decodes to a `Ref` whose hash is present in the resolved
mapping, and the value written is the inlined resolved bytes; in
particular no key whose current value is `Inlined`, undecodable, or a `Ref`
to an unresolved hash is ever written. -/
theorem c2_commit_writes_only_resolved_refs (cur : Store) (hash_to_value : HashMapL)
    (lo hi : Option Bytes) (hkeys : (cur.map Prod.fst).Nodup) :
    ∀ k w, (k, w) ∈ commitWrites cur hash_to_value lo hi →
      inRangeOpt lo hi k = true ∧
      ∃ v hash length value, lookupStore cur k = some v ∧
        FlatStateValue.try_from_slice v = some (.Ref hash length) ∧
        lookupA hash_to_value hash = some value ∧
        w = (FlatStateValue.Inlined value).try_to_vec := by
  intro k w hmem
  obtain ⟨kv, hkv, hg⟩ := List.mem_filterMap.mp hmem
  obtain ⟨hkvmem, hrange⟩ := List.mem_filter.mp hkv
  cases hdec : FlatStateValue.try_from_slice kv.2 with
  | none => simp [hdec] at hg
  | some fsv =>
      cases fsv with
      | Inlined bytes => simp [hdec] at hg
      | Ref hash length =>
          simp only [hdec, Option.map_eq_some'] at hg
          obtain ⟨value, hval, heq⟩ := hg
          have hk : kv.1 = k := congrArg Prod.fst heq
          have hw : w = (FlatStateValue.Inlined value).try_to_vec :=
            (congrArg Prod.snd heq).symm
          subst hk
          subst hw
          refine ⟨hrange, kv.2, hash, length, value, ?_, hdec, hval, rfl⟩
          exact lookupStore_of_mem_nodup (by simpa using hkvmem) hkeys

theorem c2_witness :
    inRangeOpt (some [0]) (some [0, 0]) [0] = true ∧
    ∃ v hash length value,
      lookupStore [([0], (FlatStateValue.Ref c2Hash 1).try_to_vec)] [0] = some v ∧
      FlatStateValue.try_from_slice v = some (.Ref hash length) ∧
      lookupA [(c2Hash, [9])] hash = some value ∧
      (FlatStateValue.Inlined [9]).try_to_vec = (FlatStateValue.Inlined value).try_to_vec :=
  c2_commit_writes_only_resolved_refs
    [([0], (FlatStateValue.Ref c2Hash 1).try_to_vec)] [(c2Hash, [9])]
    (some [0]) (some [0, 0]) (by decide) [0]
    ((FlatStateValue.Inlined [9]).try_to_vec) (by decide)

end NearStore

namespace StateSyncDump

lemma check_new_epoch_height (epoch_id : Option Nat) (obs : ChainObs)
    (next : StateSyncDumpProgress)
    (h : check_new_epoch epoch_id obs = some (some next)) :
    next.height = obs.head_epoch_height := by
  unfold check_new_epoch start_dumping at h
  split_ifs at h <;> (try cases h) <;> rfl

lemma compute_next_state_height (stored : Option StateSyncDumpProgress) (o : IterObs)
    (next : StateSyncDumpProgress)
    (h : (compute_next_state stored o).1 = some (some next)) :
    next.height = o.chain.head_epoch_height ∨
      ∃ e hh s, stored = some (.InProgress e hh s) ∧ next.height = hh := by
  match stored with
  | none => exact Or.inl (check_new_epoch_height none o.chain next h)
  | some (.AllDumped e hh n) => exact Or.inl (check_new_epoch_height (some e) o.chain next h)
  | some (.InProgress e hh s) =>
      refine Or.inr ⟨e, hh, s, rfl, ?_⟩
      by_cases hd : o.in_progress_data_ok
      · rw [show (compute_next_state (some (.InProgress e hh s)) o).1 =
            (match (match o.listing with
              | none => none
              | some file_names =>
                  get_missing_part_ids_for_epoch file_names o.chain.num_parts) with
             | none => ((none : Option (Option StateSyncDumpProgress)), false)
             | some [] =>
                 (some (some (.AllDumped e hh (some o.chain.num_parts))), false)
             | some (p :: parts_rest) =>
                 if (dumpLoopGo o.limit o.loop_obs o.loop_fuel 0 (p :: parts_rest)).1.isEmpty then
                   (some (some (.AllDumped e hh (some o.chain.num_parts))), true)
                 else
                   (some (some (.InProgress e hh s)), true)).1 from by
          simp [compute_next_state, hd]] at h
        rcases hml : (match o.listing with
          | none => none
          | some file_names =>
              get_missing_part_ids_for_epoch file_names o.chain.num_parts) with _ | ml
        · rw [hml] at h; cases h
        · rw [hml] at h
          rcases ml with _ | ⟨p0, prest⟩
          · simp only at h
            cases h
            rfl
          · simp only at h
            split_ifs at h <;> (cases h; rfl)
      · simp [compute_next_state, hd] at h

lemma dump_iterate_eq (stored : Option StateSyncDumpProgress) (o : IterObs) :
    (write_of stored o = none ∧
      (dump_iterate stored o = stored ∨ dump_iterate stored o = none)) ∨
    (∃ next, write_of stored o = some next ∧ dump_iterate stored o = some next ∧
      (compute_next_state stored o).1 = some (some next)) := by
  unfold write_of dump_iterate
  by_cases hk : o.keep_running
  · by_cases hr : o.read_err
    · simp [hk, hr]
    · simp only [hk, hr, Bool.not_true, Bool.false_eq_true, if_false, if_true]
      rcases hcn : (compute_next_state stored o).1 with _ | op
      · simp
      · rcases op with _ | next
        · simp
        · by_cases hwk : o.write_ok
          · exact Or.inr ⟨next, by simp [hwk], by simp [hwk], rfl⟩
          · simp [hwk]
  · simp [hk]

lemma progress_trace_height_le (obs : Nat → IterObs)
    (hmono : ∀ m n, m ≤ n →
      (obs m).chain.head_epoch_height ≤ (obs n).chain.head_epoch_height) :
    ∀ n p, progress_trace obs n = some p →
      p.height ≤ (obs n).chain.head_epoch_height := by
  intro n
  induction n with
  | zero => intro p hp; cases hp
  | succ n ih =>
      intro p hp
      rw [progress_trace] at hp
      have hstep := hmono n (n + 1) (by omega)
      rcases dump_iterate_eq (progress_trace obs n) (obs n) with ⟨_, hit | hit⟩ | ⟨next, _, hit, hcn⟩
      · rw [hit] at hp; exact le_trans (ih p hp) hstep
      · rw [hit] at hp; cases hp
      · rw [hit] at hp
        injection hp with hp; rw [← hp]
        rcases compute_next_state_height _ _ _ hcn with hh | ⟨e, hh', s, hst, hh⟩
        · rw [hh]; exact hstep
        · rw [hh]
          exact le_trans (ih _ hst) hstep

lemma write_of_height (stored : Option StateSyncDumpProgress) (o : IterObs)
    (p : StateSyncDumpProgress) (hw : write_of stored o = some p) :
    p.height = o.chain.head_epoch_height ∨
      ∃ e hh s, stored = some (.InProgress e hh s) ∧ p.height = hh := by
  rcases dump_iterate_eq stored o with ⟨hwn, _⟩ | ⟨next, hwn, _, hcn⟩
  · rw [hwn] at hw; cases hw
  · rw [hwn] at hw; injection hw with hw; rw [← hw]
    exact compute_next_state_height stored o next hcn

lemma write_of_dump_iterate (stored : Option StateSyncDumpProgress) (o : IterObs)
    (p : StateSyncDumpProgress) (hw : write_of stored o = some p) :
    dump_iterate stored o = some p := by
  rcases dump_iterate_eq stored o with ⟨hwn, _⟩ | ⟨next, hwn, hit, _⟩
  · rw [hwn] at hw; cases hw
  · rw [hwn] at hw; injection hw with hw; rw [hw] at hit; exact hit

lemma write_height_le (obs : Nat → IterObs)
    (hmono : ∀ m n, m ≤ n →
      (obs m).chain.head_epoch_height ≤ (obs n).chain.head_epoch_height)
    (n : Nat) (p : StateSyncDumpProgress)
    (hw : write_of (progress_trace obs n) (obs n) = some p) :
    p.height ≤ (obs n).chain.head_epoch_height := by
  rcases write_of_height _ _ _ hw with hh | ⟨e, hh', s, hst, hh⟩
  · rw [hh]
  · rw [hh]
    exact progress_trace_height_le obs hmono n _ hst

lemma progress_ge_after_allDumped (obs : Nat → IterObs)
    (hmono : ∀ m n, m ≤ n →
      (obs m).chain.head_epoch_height ≤ (obs n).chain.head_epoch_height)
    (m e h : Nat) (np : Option Nat)
    (hw : write_of (progress_trace obs m) (obs m) = some (.AllDumped e h np)) :
    ∀ k p, progress_trace obs (m + 1 + k) = some p → h ≤ p.height := by
  have hhm : h ≤ (obs m).chain.head_epoch_height := write_height_le obs hmono m _ hw
  intro k
  induction k with
  | zero =>
      intro p hp
      rw [progress_trace, write_of_dump_iterate _ _ _ hw] at hp
      injection hp with hp; rw [← hp]
      exact Nat.le.refl
  | succ k ih =>
      intro p hp
      rw [show m + 1 + (k + 1) = (m + 1 + k) + 1 by omega, progress_trace] at hp
      rcases dump_iterate_eq (progress_trace obs (m + 1 + k)) (obs (m + 1 + k)) with
        ⟨_, hit | hit⟩ | ⟨next, _, hit, hcn⟩
      · rw [hit] at hp; exact ih p hp
      · rw [hit] at hp; cases hp
      · rw [hit] at hp; injection hp with hp; rw [← hp]
        rcases compute_next_state_height _ _ _ hcn with hh | ⟨e', hh', s, hst, hh⟩
        · rw [hh]
          exact le_trans hhm (hmono m (m + 1 + k) (by omega))
        · rw [hh]
          exact ih _ hst

/-- C7: along any run of one shard's dumper task in which the chain head's
epoch height never decreases, the persisted progress records are monotone
on epoch height: once `AllDumped` with height `h` is written at some
iteration, every record written at any later iteration (whether `AllDumped`
or `InProgress`) has height at least `h`. -/
theorem c7_progress_epoch_height_monotone (obs : Nat → IterObs)
    (hmono : ∀ m n, m ≤ n →
      (obs m).chain.head_epoch_height ≤ (obs n).chain.head_epoch_height)
    (m n e h : Nat) (np : Option Nat) (p : StateSyncDumpProgress)
    (hmn : m ≤ n)
    (hw : write_of (progress_trace obs m) (obs m) = some (.AllDumped e h np))
    (hw2 : write_of (progress_trace obs n) (obs n) = some p) :
    h ≤ p.height := by
  rcases Nat.eq_or_lt_of_le hmn with rfl | hlt
  · rw [hw] at hw2
    injection hw2 with hw2; rw [← hw2]
    exact Nat.le.refl
  · rcases write_of_height _ _ _ hw2 with hh | ⟨e', hh', s, hst, hh⟩
    · rw [hh]
      exact le_trans (write_height_le obs hmono m _ hw) (hmono m n (by omega))
    · rw [hh]
      have := progress_ge_after_allDumped obs hmono m e h np hw (n - m - 1)
        (.InProgress e' hh' s) (by rw [show m + 1 + (n - m - 1) = n by omega]; exact hst)
      simpa using this

theorem c7_witness :
    0 ≤ (StateSyncDumpProgress.AllDumped 1 1 (some 0)).height :=
  c7_progress_epoch_height_monotone c7WitnessObs (fun m n hmn => hmn)
    0 1 0 0 (some 0) (.AllDumped 1 1 (some 0)) (by omega) (by decide) (by decide)

end StateSyncDump

namespace NearStore

lemma lexLt_irrefl (a : Bytes) : lexLt a a = false := by
  induction a with
  | nil => rfl
  | cons x s ih => simp [lexLt, ih]

lemma lexLt_nil_right (a : Bytes) : lexLt a [] = false := by
  cases a <;> rfl

lemma lexLt_asymm : ∀ a b : Bytes, lexLt a b = true → lexLt b a = false := by
  intro a
  induction a with
  | nil =>
      intro b h
      cases b with
      | nil => simp [lexLt] at h
      | cons y t => simp [lexLt]
  | cons x s ih =>
      intro b h
      cases b with
      | nil => simp [lexLt] at h
      | cons y t =>
          simp only [lexLt, Bool.or_eq_true, Bool.and_eq_true, beq_iff_eq,
            decide_eq_true_eq] at h
          simp only [lexLt, Bool.or_eq_false_iff, Bool.and_eq_false_iff,
            decide_eq_false_iff_not, beq_eq_false_iff_ne, ne_eq]
          rcases h with h | ⟨rfl, h⟩
          · exact ⟨by omega, Or.inl (by omega)⟩
          · exact ⟨by omega, Or.inr (ih t h)⟩

lemma lexLt_trans : ∀ a b c : Bytes, lexLt a b = true → lexLt b c = true →
    lexLt a c = true := by
  intro a
  induction a with
  | nil =>
      intro b c hab hbc
      cases b with
      | nil => simp [lexLt] at hab
      | cons y t =>
          cases c with
          | nil => simp [lexLt] at hbc
          | cons z u => simp [lexLt]
  | cons x s ih =>
      intro b c hab hbc
      cases b with
      | nil => simp [lexLt] at hab
      | cons y t =>
          cases c with
          | nil => simp [lexLt] at hbc
          | cons z u =>
              simp only [lexLt, Bool.or_eq_true, Bool.and_eq_true, beq_iff_eq,
                decide_eq_true_eq] at hab hbc ⊢
              rcases hab with hab | ⟨rfl, hab⟩
              · rcases hbc with hbc | ⟨rfl, hbc⟩
                · left; omega
                · left; exact hab
              · rcases hbc with hbc | ⟨rfl, hbc⟩
                · left; exact hbc
                · right; exact ⟨rfl, ih t u hab hbc⟩

lemma lexLt_append_zero : ∀ (k mx : Bytes), lexLt k (mx ++ [0]) = !lexLt mx k := by
  intro k
  induction k with
  | nil => intro mx; cases mx <;> simp [lexLt]
  | cons a s ih =>
      intro mx
      cases mx with
      | nil => simp [lexLt, lexLt_nil_right]
      | cons m ms =>
          simp only [List.cons_append, lexLt, ih ms]
          rcases Nat.lt_trichotomy a m with h | h | h
          · have h1 : ¬m < a := by omega
            have h2 : ¬m = a := by omega
            simp [h, h1, h2]
          · subst h
            simp [Nat.lt_irrefl, ih ms]
          · have h1 : ¬a < m := by omega
            have h2 : ¬a = m := by omega
            simp [h, h1, h2]

lemma chunksGo_congr (n : Nat) :
    ∀ (f1 : Nat) (l : List α), l.length ≤ f1 → ∀ f2, l.length ≤ f2 →
      chunksGo n f1 l = chunksGo n f2 l := by
  intro f1
  induction f1 with
  | zero =>
      intro l hl f2 _
      have : l = [] := List.length_eq_zero.mp (Nat.le_zero.mp hl)
      subst this
      cases f2 <;> rfl
  | succ f1 ih =>
      intro l hl f2 h2
      cases l with
      | nil => cases f2 <;> rfl
      | cons x xs =>
          cases f2 with
          | zero => simp at h2
          | succ f2 =>
              simp only [List.length_cons] at hl h2
              simp only [chunksGo]
              congr 1
              exact ih (xs.drop n) (by simp [List.length_drop]; omega) f2
                (by simp [List.length_drop]; omega)

lemma toBatches_nil (m : Nat) : toBatches m ([] : List α) = [] := rfl

lemma toBatches_cons (m : Nat) (hm : 0 < m) (l : List α) (hl : l ≠ []) :
    toBatches m l = l.take m :: toBatches m (l.drop m) := by
  obtain ⟨x, xs, rfl⟩ := List.exists_cons_of_ne_nil hl
  unfold toBatches
  rw [show (x :: xs).length = xs.length + 1 from rfl]
  rw [chunksGo]
  congr 1
  · rw [show m = (m - 1) + 1 by omega]
    simp [List.take_succ_cons]
  · rw [show (x :: xs).drop m = xs.drop (m - 1) by
      rw [show m = (m - 1) + 1 by omega]; simp [List.drop_succ_cons]]
    exact chunksGo_congr (m - 1) xs.length (xs.drop (m - 1))
      (by simp [List.length_drop]) _ (le_refl _)

lemma toBatches_flatten (m : Nat) (hm : 0 < m) :
    ∀ (n : Nat) (l : List α), l.length ≤ n → (toBatches m l).flatten = l := by
  intro n
  induction n with
  | zero =>
      intro l hl
      have : l = [] := List.length_eq_zero.mp (Nat.le_zero.mp hl)
      subst this
      rfl
  | succ n ih =>
      intro l hl
      cases l with
      | nil => rfl
      | cons x xs =>
          rw [toBatches_cons m hm (x :: xs) (by simp), List.flatten_cons,
            ih ((x :: xs).drop m)
              (by simp only [List.length_cons] at hl; simp [List.length_drop]; omega)]
          exact List.take_append_drop m (x :: xs)

lemma toBatches_sublist (m : Nat) (hm : 0 < m) :
    ∀ (n : Nat) (l b : List α), l.length ≤ n → b ∈ toBatches m l → b.Sublist l := by
  intro n
  induction n with
  | zero =>
      intro l b hl hb
      have : l = [] := List.length_eq_zero.mp (Nat.le_zero.mp hl)
      subst this
      simp [toBatches_nil] at hb
  | succ n ih =>
      intro l b hl hb
      cases l with
      | nil => simp [toBatches_nil] at hb
      | cons x xs =>
          rw [toBatches_cons m hm (x :: xs) (by simp)] at hb
          rcases List.mem_cons.mp hb with rfl | hb
          · exact List.take_sublist m (x :: xs)
          · exact (ih ((x :: xs).drop m) b
              (by simp only [List.length_cons] at hl; simp [List.length_drop]; omega)
              hb).trans (List.drop_sublist m (x :: xs))

lemma scanBatch_foldl_spec (b : List (Bytes × Bytes)) :
    ∀ st : ScanState,
      (b.foldl scanStep st).requests = st.requests ++ b.filterMap reqOf ∧
      (b.foldl scanStep st).min_key =
        (match st.min_key with
         | some mkey => some mkey
         | none => (b.filterMap selKey).head?) ∧
      (b.foldl scanStep st).max_key =
        (match (b.filterMap selKey).getLast? with
         | some x => some x
         | none => st.max_key) := by
  induction b with
  | nil =>
      intro st
      refine ⟨by simp, ?_, by simp⟩
      rcases hmk : st.min_key with _ | mkey <;> simp [hmk]
  | cons kv t ih =>
      intro st
      rcases hreq : reqOf kv with _ | r
      · have hsel : selKey kv = none := by simp [selKey, hreq]
        have hstep : scanStep st kv = st := by simp [scanStep, hreq]
        simp only [List.foldl_cons, hstep, List.filterMap_cons, hreq, hsel]
        exact ih st
      · have hsel : selKey kv = some kv.1 := by simp [selKey, hreq]
        have hstep : scanStep st kv =
            ⟨st.requests ++ [r], some (st.min_key.getD kv.1), some kv.1⟩ := by
          simp [scanStep, hreq]
        simp only [List.foldl_cons, hstep, List.filterMap_cons, hreq, hsel]
        obtain ⟨ih1, ih2, ih3⟩ :=
          ih ⟨st.requests ++ [r], some (st.min_key.getD kv.1), some kv.1⟩
        refine ⟨by simp [ih1], ?_, ?_⟩
        · rw [ih2]
          rcases hmk : st.min_key with _ | mkey <;> simp [hmk]
        · rw [ih3]
          cases hgl : (t.filterMap selKey).getLast? <;>
            simp [List.getLast?_cons, hgl]

lemma scanBatch_requests (b : List (Bytes × Bytes)) :
    (scanBatch b).requests = b.filterMap reqOf := by
  simpa using (scanBatch_foldl_spec b ⟨[], none, none⟩).1

lemma scanBatch_min_key (b : List (Bytes × Bytes)) :
    (scanBatch b).min_key = (b.filterMap selKey).head? :=
  (scanBatch_foldl_spec b ⟨[], none, none⟩).2.1

lemma scanBatch_max_key (b : List (Bytes × Bytes)) :
    (scanBatch b).max_key = (b.filterMap selKey).getLast? := by
  unfold scanBatch
  rw [(scanBatch_foldl_spec b ⟨[], none, none⟩).2.2]
  cases (b.filterMap selKey).getLast? <;> rfl

lemma receive_all_loop_lookup_some (trie : TrieStorage) :
    ∀ (reqs : List ReadValueRequest) (acc : HashMapL) (h val : Bytes),
      lookupA (receive_all_loop trie reqs acc) h = some val →
      (∃ r ∈ reqs, r.value_hash = h ∧ trie r.shard_uid h = some val) ∨
        lookupA acc h = some val := by
  intro reqs
  induction reqs with
  | nil => intro acc h val hl; exact Or.inr hl
  | cons r t ih =>
      intro acc h val hl
      rw [receive_all_loop] at hl
      rcases htr : trie r.shard_uid r.value_hash with _ | b
      · rw [htr] at hl
        rcases ih acc h val hl with ⟨r', hr', hh, hs⟩ | hacc
        · exact Or.inl ⟨r', List.mem_cons_of_mem _ hr', hh, hs⟩
        · exact Or.inr hacc
      · rw [htr] at hl
        rcases ih _ h val hl with ⟨r', hr', hh, hs⟩ | hacc
        · exact Or.inl ⟨r', List.mem_cons_of_mem _ hr', hh, hs⟩
        · rw [lookupA_insertA] at hacc
          by_cases hh : h = r.value_hash
          · subst hh
            simp at hacc
            subst hacc
            exact Or.inl ⟨r, List.mem_cons_self r t, rfl, htr⟩
          · rw [if_neg hh] at hacc
            exact Or.inr hacc

lemma receive_all_loop_preserve (trie : TrieStorage) :
    ∀ (reqs : List ReadValueRequest) (acc : HashMapL) (h val : Bytes),
      (∀ r ∈ reqs, r.value_hash = h → ∀ b, trie r.shard_uid h = some b → b = val) →
      lookupA acc h = some val →
      lookupA (receive_all_loop trie reqs acc) h = some val := by
  intro reqs
  induction reqs with
  | nil => intro acc h val _ hacc; exact hacc
  | cons r t ih =>
      intro acc h val hu hacc
      rw [receive_all_loop]
      rcases htr : trie r.shard_uid r.value_hash with _ | b
      · exact ih acc h val (fun r' hr' => hu r' (List.mem_cons_of_mem _ hr')) hacc
      · refine ih _ h val (fun r' hr' => hu r' (List.mem_cons_of_mem _ hr')) ?_
        rw [lookupA_insertA]
        by_cases hh : h = r.value_hash
        · subst hh
          rw [if_pos rfl]
          have := hu r (List.mem_cons_self r t) rfl b htr
          rw [this]
        · rw [if_neg hh]
          exact hacc

lemma receive_all_lookup_of_mem (trie : TrieStorage) :
    ∀ (reqs : List ReadValueRequest) (acc : HashMapL) (r0 : ReadValueRequest) (val : Bytes),
      (∀ r ∈ reqs, r.value_hash = r0.value_hash → ∀ b,
        trie r.shard_uid r0.value_hash = some b → b = val) →
      r0 ∈ reqs → trie r0.shard_uid r0.value_hash = some val →
      lookupA (receive_all_loop trie reqs acc) r0.value_hash = some val := by
  intro reqs
  induction reqs with
  | nil => intro acc r0 val _ h0; cases h0
  | cons r t ih =>
      intro acc r0 val hu h0 htr0
      rw [receive_all_loop]
      rcases List.mem_cons.mp h0 with rfl | h0
      · rw [htr0]
        exact receive_all_loop_preserve trie t _ _ val
          (fun r' hr' => hu r' (List.mem_cons_of_mem _ hr'))
          (by rw [lookupA_insertA, if_pos rfl])
      · rcases htr : trie r.shard_uid r.value_hash with _ | b
        · exact ih acc r0 val (fun r' hr' => hu r' (List.mem_cons_of_mem _ hr')) h0 htr0
        · refine ih _ r0 val (fun r' hr' => hu r' (List.mem_cons_of_mem _ hr')) h0 htr0

lemma receive_all_loop_all_fail (trie : TrieStorage) :
    ∀ (reqs : List ReadValueRequest) (acc : HashMapL),
      (∀ r ∈ reqs, trie r.shard_uid r.value_hash = none) →
      receive_all_loop trie reqs acc = acc := by
  intro reqs
  induction reqs with
  | nil => intro acc _; rfl
  | cons r t ih =>
      intro acc hf
      rw [receive_all_loop, hf r (List.mem_cons_self r t)]
      exact ih acc (fun r' hr' => hf r' (List.mem_cons_of_mem _ hr'))

lemma receive_all_lookup_none (trie : TrieStorage) (reqs : List ReadValueRequest)
    (h : Bytes) (hnone : lookupA (receive_all trie reqs).1 h = none) :
    ∀ r ∈ reqs, r.value_hash = h → trie r.shard_uid h = none := by
  intro r hr hh
  rcases htr : trie r.shard_uid h with _ | b
  · rfl
  · exfalso
    have hs := receive_all_loop_lookup_isSome trie reqs [] h
    rw [show receive_all_loop trie reqs [] = (receive_all trie reqs).1 from rfl,
      hnone] at hs
    simp only [Option.isSome_none, lookupA, Bool.or_false] at hs
    rw [eq_comm, List.any_eq_false] at hs
    exact hs r hr (by simp [hh, htr])

lemma receive_all_empty_fail (trie : TrieStorage) (reqs : List ReadValueRequest)
    (h : (receive_all trie reqs).1 = []) :
    ∀ r ∈ reqs, trie r.shard_uid r.value_hash = none := by
  intro r hr
  exact receive_all_lookup_none trie reqs r.value_hash (by rw [h]; rfl) r hr rfl

lemma setValue_keys (l : Store) (k w : Bytes) :
    (setValue l k w).map Prod.fst = l.map Prod.fst := by
  induction l with
  | nil => rfl
  | cons kv t ih =>
      by_cases hk : kv.1 = k
      · simp [setValue, hk, List.map_cons] at ih ⊢
        exact ih
      · simp [setValue, hk, List.map_cons] at ih ⊢
        exact ih

lemma setValue_not_mem (l : Store) (k w : Bytes) (h : ¬k ∈ l.map Prod.fst) :
    setValue l k w = l := by
  induction l with
  | nil => rfl
  | cons kv t ih =>
      simp only [List.map_cons, List.mem_cons] at h
      push_neg at h
      have hk : ¬kv.1 = k := fun e => h.1 e.symm
      show (if kv.1 = k then (k, w) else kv) :: setValue t k w = kv :: t
      rw [if_neg hk, ih h.2]

lemma applyWrites_nil (l : Store) : applyWrites l [] = l := rfl

lemma applyWrites_cons (l : Store) (p : Bytes × Bytes) (ws : List (Bytes × Bytes)) :
    applyWrites l (p :: ws) = applyWrites (setValue l p.1 p.2) ws := rfl

lemma applyWrites_append (ws : List (Bytes × Bytes)) :
    ∀ (X Y Z : Store),
      (∀ p ∈ ws, ¬p.1 ∈ X.map Prod.fst ∧ ¬p.1 ∈ Z.map Prod.fst) →
      applyWrites (X ++ Y ++ Z) ws = X ++ applyWrites Y ws ++ Z := by
  induction ws with
  | nil => intro X Y Z _; rfl
  | cons p ws ih =>
      intro X Y Z hdis
      rw [applyWrites_cons, applyWrites_cons]
      rw [show setValue (X ++ Y ++ Z) p.1 p.2 =
          X ++ setValue Y p.1 p.2 ++ Z from by
        have h1 := (hdis p (List.mem_cons_self p ws)).1
        have h2 := (hdis p (List.mem_cons_self p ws)).2
        simp only [setValue, List.map_append]
        rw [show List.map (fun kv => if kv.1 = p.1 then (p.1, p.2) else kv) X =
            setValue X p.1 p.2 from rfl,
          show List.map (fun kv => if kv.1 = p.1 then (p.1, p.2) else kv) Z =
            setValue Z p.1 p.2 from rfl,
          setValue_not_mem X p.1 p.2 h1, setValue_not_mem Z p.1 p.2 h2]]
      exact ih X (setValue Y p.1 p.2) Z
        (fun q hq => hdis q (List.mem_cons_of_mem _ hq))

lemma applyWrites_cons_notmem (ws : List (Bytes × Bytes)) :
    ∀ (x : Bytes × Bytes) (t : Store),
      (∀ p ∈ ws, p.1 ≠ x.1) →
      applyWrites (x :: t) ws = x :: applyWrites t ws := by
  induction ws with
  | nil => intro x t _; rfl
  | cons p ws ih =>
      intro x t hne
      rw [applyWrites_cons, applyWrites_cons]
      rw [show setValue (x :: t) p.1 p.2 = x :: setValue t p.1 p.2 from by
        have hx := hne p (List.mem_cons_self p ws)
        show (if x.1 = p.1 then (p.1, p.2) else x) :: setValue t p.1 p.2 = _
        rw [if_neg (fun e : x.1 = p.1 => hx e.symm)]]
      exact ih x (setValue t p.1 p.2) (fun q hq => hne q (List.mem_cons_of_mem _ hq))

lemma iter_range_nil_of_out (X : Store) (lo hi : Option Bytes)
    (h : ∀ kv ∈ X, inRangeOpt lo hi kv.1 = false) : iter_range X lo hi = [] := by
  induction X with
  | nil => rfl
  | cons kv t ih =>
      unfold iter_range at ih ⊢
      rw [List.filter_cons, if_neg (by simp [h kv (List.mem_cons_self kv t)])]
      exact ih (fun kv' hkv' => h kv' (List.mem_cons_of_mem _ hkv'))

lemma commitWrites_append (X Y : Store) (m : HashMapL) (lo hi : Option Bytes) :
    commitWrites (X ++ Y) m lo hi = commitWrites X m lo hi ++ commitWrites Y m lo hi := by
  unfold commitWrites iter_range
  rw [List.filter_append, List.filterMap_append]

lemma commitWrites_nil_of_out (X : Store) (m : HashMapL) (lo hi : Option Bytes)
    (h : ∀ kv ∈ X, inRangeOpt lo hi kv.1 = false) : commitWrites X m lo hi = [] := by
  unfold commitWrites
  rw [iter_range_nil_of_out X lo hi h]
  rfl

lemma commitWrites_key_mem (st : Store) (m : HashMapL) (lo hi : Option Bytes) :
    ∀ p ∈ commitWrites st m lo hi, p.1 ∈ st.map Prod.fst := by
  intro p hp
  obtain ⟨kv, hkv, hg⟩ := List.mem_filterMap.mp hp
  have hkv' := (List.mem_filter.mp hkv).1
  cases hdec : FlatStateValue.try_from_slice kv.2 with
  | none => simp [hdec] at hg
  | some fsv =>
      cases fsv with
      | Inlined bytes => simp [hdec] at hg
      | Ref hash length =>
          simp only [hdec, Option.map_eq_some'] at hg
          obtain ⟨val, _, heq⟩ := hg
          have : p.1 = kv.1 := (congrArg Prod.fst heq).symm
          rw [this]
          exact List.mem_map.mpr ⟨kv, hkv', rfl⟩

lemma sorted_head_min {l : List Bytes}
    (hp : l.Pairwise (fun a b => lexLt a b = true)) {k mn : Bytes}
    (hk : k ∈ l) (hh : l.head? = some mn) : lexLt k mn = false := by
  cases l with
  | nil => cases hk
  | cons a t =>
      injection hh with hh
      subst hh
      rcases List.mem_cons.mp hk with rfl | hk
      · exact lexLt_irrefl k
      · exact lexLt_asymm _ _ ((List.pairwise_cons.mp hp).1 k hk)

lemma sorted_getLast_max :
    ∀ {l : List Bytes}, l.Pairwise (fun a b => lexLt a b = true) →
      ∀ {k mx : Bytes}, k ∈ l → l.getLast? = some mx → lexLt mx k = false := by
  intro l
  induction l with
  | nil => intro _ k mx hk _; cases hk
  | cons a t ih =>
      intro hp k mx hk hl
      rw [List.getLast?_cons] at hl
      injection hl with hl
      rcases hgt : t.getLast? with _ | x
      · rw [hgt] at hl
        simp only [Option.getD_none] at hl
        subst hl
        have ht : t = [] := by
          cases t with
          | nil => rfl
          | cons y u => rw [List.getLast?_cons] at hgt; cases hgt
        subst ht
        rcases List.mem_cons.mp hk with rfl | hk
        · exact lexLt_irrefl k
        · cases hk
      · rw [hgt] at hl
        simp only [Option.getD_some] at hl
        subst hl
        rcases List.mem_cons.mp hk with rfl | hk
        · have hxmem : x ∈ t := List.mem_of_mem_getLast? hgt
          exact lexLt_asymm _ _ ((List.pairwise_cons.mp hp).1 x hxmem)
        · exact ih (List.pairwise_cons.mp hp).2 hk hgt

lemma selKey_sublist (b : Store) : (b.filterMap selKey).Sublist (b.map Prod.fst) := by
  induction b with
  | nil => exact List.Sublist.refl []
  | cons kv t ih =>
      rcases hreq : reqOf kv with _ | r
      · have hs : selKey kv = none := by simp [selKey, hreq]
        simp only [List.filterMap_cons, hs, List.map_cons]
        exact ih.cons kv.1
      · have hs : selKey kv = some kv.1 := by simp [selKey, hreq]
        simp only [List.filterMap_cons, hs, List.map_cons]
        exact ih.cons₂ kv.1

lemma pairwise_lexLt_nodup {l : List Bytes}
    (hp : l.Pairwise (fun a b => lexLt a b = true)) : l.Nodup :=
  hp.imp (fun h => by rintro rfl; rw [lexLt_irrefl] at h; cases h)

lemma filterMap_selKey_eq_nil_iff (b : Store) :
    b.filterMap selKey = [] ↔ b.filterMap reqOf = [] := by
  induction b with
  | nil => simp
  | cons kv t ih =>
      rcases hreq : reqOf kv with _ | r
      · have hs : selKey kv = none := by simp [selKey, hreq]
        simp [List.filterMap_cons, hreq, hs, ih]
      · have hs : selKey kv = some kv.1 := by simp [selKey, hreq]
        simp [List.filterMap_cons, hreq, hs]

lemma applyWrites_commit (m : HashMapL) (lo hi : Option Bytes) :
    ∀ b : Store, (b.map Prod.fst).Nodup →
      applyWrites b (commitWrites b m lo hi) =
        b.map (fun kv => (kv.1, commitValue m lo hi kv.1 kv.2)) := by
  intro b
  induction b with
  | nil => intro _; rfl
  | cons kv t ih =>
      intro hnd
      rw [List.map_cons, List.nodup_cons] at hnd
      have hne : ∀ p ∈ commitWrites t m lo hi, p.1 ≠ kv.1 := by
        intro p hp he
        exact hnd.1 (he ▸ commitWrites_key_mem t m lo hi p hp)
      by_cases hin : inRangeOpt lo hi kv.1 = true
      · cases hdec : FlatStateValue.try_from_slice kv.2 with
        | none =>
            have hcw : commitWrites (kv :: t) m lo hi = commitWrites t m lo hi := by
              unfold commitWrites iter_range
              rw [List.filter_cons, if_pos (by simp [hin]), List.filterMap_cons]
              simp [hdec]
            rw [hcw, applyWrites_cons_notmem _ kv t hne, ih hnd.2, List.map_cons]
            congr 1
            rw [show commitValue m lo hi kv.1 kv.2 = kv.2 from by
              simp [commitValue, hin, hdec]]
        | some fsv =>
            cases fsv with
            | Inlined bytes =>
                have hcw : commitWrites (kv :: t) m lo hi = commitWrites t m lo hi := by
                  unfold commitWrites iter_range
                  rw [List.filter_cons, if_pos (by simp [hin]), List.filterMap_cons]
                  simp [hdec]
                rw [hcw, applyWrites_cons_notmem _ kv t hne, ih hnd.2, List.map_cons]
                congr 1
                rw [show commitValue m lo hi kv.1 kv.2 = kv.2 from by
                  simp [commitValue, hin, hdec]]
            | Ref hash length =>
                cases hlk : lookupA m hash with
                | none =>
                    have hcw : commitWrites (kv :: t) m lo hi = commitWrites t m lo hi := by
                      unfold commitWrites iter_range
                      rw [List.filter_cons, if_pos (by simp [hin]), List.filterMap_cons]
                      simp [hdec, hlk]
                    rw [hcw, applyWrites_cons_notmem _ kv t hne, ih hnd.2, List.map_cons]
                    congr 1
                    rw [show commitValue m lo hi kv.1 kv.2 = kv.2 from by
                      simp [commitValue, hin, hdec, hlk]]
                | some val =>
                    have hcw : commitWrites (kv :: t) m lo hi =
                        (kv.1, (FlatStateValue.Inlined val).try_to_vec) ::
                          commitWrites t m lo hi := by
                      unfold commitWrites iter_range
                      rw [List.filter_cons, if_pos (by simp [hin]), List.filterMap_cons]
                      simp [hdec, hlk]
                    rw [hcw, applyWrites_cons]
                    rw [show setValue (kv :: t) kv.1 (FlatStateValue.Inlined val).try_to_vec =
                        (kv.1, (FlatStateValue.Inlined val).try_to_vec) :: t from by
                      show (if kv.1 = kv.1 then _ else kv) :: setValue t kv.1 _ = _
                      rw [if_pos rfl, setValue_not_mem t kv.1 _ hnd.1]]
                    rw [applyWrites_cons_notmem _
                        (kv.1, (FlatStateValue.Inlined val).try_to_vec) t
                        (fun p hp => hne p hp), ih hnd.2, List.map_cons]
                    congr 1
                    rw [show commitValue m lo hi kv.1 kv.2 =
                        (FlatStateValue.Inlined val).try_to_vec from by
                      simp [commitValue, hin, hdec, hlk]]
      · have hcw : commitWrites (kv :: t) m lo hi = commitWrites t m lo hi := by
          unfold commitWrites iter_range
          rw [List.filter_cons, if_neg (by simp [hin])]
        rw [hcw, applyWrites_cons_notmem _ kv t hne, ih hnd.2, List.map_cons]
        congr 1
        rw [show commitValue m lo hi kv.1 kv.2 = kv.2 from by
          simp [commitValue, hin]]

lemma batchApply_of_isEmpty (trie : TrieStorage) (b : Store)
    (hm : ((receive_all trie (scanBatch b).requests).1).isEmpty = true) :
    batchApply trie b = b := by
  unfold batchApply batchValue
  simp only [hm, if_true]
  simp

lemma batchApply_keys (trie : TrieStorage) (b : Store) :
    (batchApply trie b).map Prod.fst = b.map Prod.fst := by
  unfold batchApply
  rw [List.map_map]
  rfl

lemma batchApply_length (trie : TrieStorage) (b : Store) :
    (batchApply trie b).length = b.length := by
  simp [batchApply]

lemma runBatch_eq (trie : TrieStorage) (doneV done b rest' : Store)
    (hkeys : done.map Prod.fst = doneV.map Prod.fst)
    (hsorted : ((done ++ b ++ rest').map Prod.fst).Pairwise
      (fun x y => lexLt x y = true)) :
    runBatch trie (doneV ++ b ++ rest') b = doneV ++ batchApply trie b ++ rest' := by
  by_cases hm : ((receive_all trie (scanBatch b).requests).1).isEmpty = true
  · rw [show runBatch trie (doneV ++ b ++ rest') b = doneV ++ b ++ rest' from by
      unfold runBatch
      simp only [hm, if_true]]
    rw [batchApply_of_isEmpty trie b hm]
  · have hm' : (receive_all trie (scanBatch b).requests).1 ≠ [] := by
      intro h
      rw [h] at hm
      exact hm rfl
    have hreqne : (scanBatch b).requests ≠ [] := by
      intro h
      apply hm'
      rw [h]
      rfl
    have hselne : b.filterMap selKey ≠ [] := by
      rw [scanBatch_requests] at hreqne
      intro h
      exact hreqne ((filterMap_selKey_eq_nil_iff b).mp h)
    obtain ⟨mn, skt, hsel⟩ := List.exists_cons_of_ne_nil hselne
    have hmin : (scanBatch b).min_key = some mn := by
      rw [scanBatch_min_key, hsel]
      rfl
    obtain ⟨mx, hmx⟩ : ∃ mx, (b.filterMap selKey).getLast? = some mx := by
      rw [hsel, List.getLast?_cons]
      exact ⟨_, rfl⟩
    have hmax : (scanBatch b).max_key = some mx := by
      rw [scanBatch_max_key, hmx]
    have hs2 : (done.map Prod.fst ++ (b.map Prod.fst ++ rest'.map Prod.fst)).Pairwise
        (fun x y => lexLt x y = true) := by
      simpa [List.map_append, List.append_assoc] using hsorted
    obtain ⟨hpdone, hpbr, hcross⟩ := List.pairwise_append.mp hs2
    obtain ⟨hpb, hprest, hcross2⟩ := List.pairwise_append.mp hpbr
    have hmn_mem : mn ∈ b.map Prod.fst :=
      (selKey_sublist b).subset (by rw [hsel]; exact List.mem_cons_self mn skt)
    have hmx_mem : mx ∈ b.map Prod.fst :=
      (selKey_sublist b).subset (List.mem_of_mem_getLast? hmx)
    have hout1 : ∀ kv ∈ doneV, inRangeOpt (some mn) (some (mx ++ [0])) kv.1 = false := by
      intro kv hkv
      have hk : kv.1 ∈ doneV.map Prod.fst := List.mem_map.mpr ⟨kv, hkv, rfl⟩
      rw [← hkeys] at hk
      have hlt : lexLt kv.1 mn = true :=
        hcross kv.1 hk mn (List.mem_append.mpr (Or.inl hmn_mem))
      simp [inRangeOpt, hlt]
    have hout2 : ∀ kv ∈ rest', inRangeOpt (some mn) (some (mx ++ [0])) kv.1 = false := by
      intro kv hkv
      have hk : kv.1 ∈ rest'.map Prod.fst := List.mem_map.mpr ⟨kv, hkv, rfl⟩
      have hlt : lexLt mx kv.1 = true := hcross2 mx hmx_mem kv.1 hk
      simp [inRangeOpt, lexLt_append_zero, hlt]
    have hwkeys := commitWrites_key_mem b (receive_all trie (scanBatch b).requests).1
      (some mn) (some (mx ++ [0]))
    have hdis : ∀ p ∈ commitWrites b (receive_all trie (scanBatch b).requests).1
        (some mn) (some (mx ++ [0])),
        ¬p.1 ∈ doneV.map Prod.fst ∧ ¬p.1 ∈ rest'.map Prod.fst := by
      intro p hp
      have hpb2 : p.1 ∈ b.map Prod.fst := hwkeys p hp
      constructor
      · intro hmem
        rw [← hkeys] at hmem
        have := hcross p.1 hmem p.1 (List.mem_append.mpr (Or.inl hpb2))
        rw [lexLt_irrefl] at this
        cases this
      · intro hmem
        have := hcross2 p.1 hpb2 p.1 hmem
        rw [lexLt_irrefl] at this
        cases this
    have hrb : runBatch trie (doneV ++ b ++ rest') b =
        applyWrites (doneV ++ b ++ rest')
          (commitWrites (doneV ++ b ++ rest')
            (receive_all trie (scanBatch b).requests).1
            (scanBatch b).min_key
            ((scanBatch b).max_key.map (fun v => v ++ [0]))) := by
      unfold runBatch
      rw [if_neg hm]
    rw [hrb, hmin, hmax]
    simp only [Option.map_some']
    rw [show commitWrites (doneV ++ b ++ rest')
          (receive_all trie (scanBatch b).requests).1
          (some mn) (some (mx ++ [0])) =
        commitWrites b (receive_all trie (scanBatch b).requests).1
          (some mn) (some (mx ++ [0])) from by
      rw [commitWrites_append, commitWrites_append,
        commitWrites_nil_of_out doneV _ _ _ hout1,
        commitWrites_nil_of_out rest' _ _ _ hout2]
      simp]
    rw [applyWrites_append _ doneV b rest' hdis]
    rw [applyWrites_commit _ _ _ b (pairwise_lexLt_nodup hpb)]
    rw [show batchApply trie b =
        b.map (fun kv => (kv.1, commitValue (receive_all trie (scanBatch b).requests).1
          (some mn) (some (mx ++ [0])) kv.1 kv.2)) from by
      unfold batchApply batchValue
      simp only [hm, if_false, hmin, hmax, Option.map_some', Bool.false_eq_true]]

lemma inline_foldl_eq (trie : TrieStorage) (batch_size : Nat) (hbs : 0 < batch_size) :
    ∀ (n : Nat) (rest done doneV : Store), rest.length ≤ n →
      done.map Prod.fst = doneV.map Prod.fst →
      ((done ++ rest).map Prod.fst).Pairwise (fun x y => lexLt x y = true) →
      (toBatches batch_size rest).foldl (runBatch trie) (doneV ++ rest) =
        doneV ++ ((toBatches batch_size rest).map (batchApply trie)).flatten := by
  intro n
  induction n with
  | zero =>
      intro rest done doneV hl _ _
      have : rest = [] := List.length_eq_zero.mp (Nat.le_zero.mp hl)
      subst this
      simp [toBatches_nil]
  | succ n ih =>
      intro rest done doneV hl hkeys hsorted
      cases hrest : rest with
      | nil => simp [toBatches_nil]
      | cons x xs =>
          rw [← hrest]
          rw [toBatches_cons batch_size hbs rest (by rw [hrest]; simp)]
          rw [List.foldl_cons, List.map_cons, List.flatten_cons]
          have hsplit : rest = rest.take batch_size ++ rest.drop batch_size :=
            (List.take_append_drop batch_size rest).symm
          have hstep : runBatch trie (doneV ++ rest) (rest.take batch_size) =
              doneV ++ batchApply trie (rest.take batch_size) ++ rest.drop batch_size := by
            rw [show doneV ++ rest =
                doneV ++ rest.take batch_size ++ rest.drop batch_size from by
              rw [List.append_assoc, ← hsplit]]
            exact runBatch_eq trie doneV done (rest.take batch_size)
              (rest.drop batch_size) hkeys
              (by rw [List.append_assoc, ← hsplit]; exact hsorted)
          rw [hstep]
          have hlen : (rest.drop batch_size).length ≤ n := by
            rw [hrest] at hl ⊢
            simp only [List.length_cons] at hl
            simp [List.length_drop]
            omega
          have hkeys2 : (done ++ rest.take batch_size).map Prod.fst =
              (doneV ++ batchApply trie (rest.take batch_size)).map Prod.fst := by
            rw [List.map_append, List.map_append, hkeys, batchApply_keys]
          have hsorted2 : ((done ++ rest.take batch_size ++ rest.drop batch_size).map
              Prod.fst).Pairwise (fun x y => lexLt x y = true) := by
            rw [List.append_assoc, ← hsplit]
            exact hsorted
          have hfin := ih (rest.drop batch_size) (done ++ rest.take batch_size)
            (doneV ++ batchApply trie (rest.take batch_size)) hlen hkeys2 hsorted2
          simp only [List.append_assoc] at hfin ⊢
          exact hfin

/-- The full migration rewrites the column batch by batch: the result is the
concatenation of `batchApply` over the scan's batches. -/
lemma inline_flat_state_values_eq (trie : TrieStorage) (store : Store)
    (batch_size : Nat) (hbs : 0 < batch_size)
    (hsorted : (store.map Prod.fst).Pairwise (fun x y => lexLt x y = true)) :
    inline_flat_state_values trie store batch_size =
      ((toBatches batch_size store).map (batchApply trie)).flatten := by
  unfold inline_flat_state_values
  have := inline_foldl_eq trie batch_size hbs store.length store [] [] (le_refl _)
    rfl (by simpa using hsorted)
  simpa using this

lemma reqOf_eq_some {kv : Bytes × Bytes} {r : ReadValueRequest} (h : reqOf kv = some r) :
    ∃ su tk len, decode_flat_state_db_key kv.1 = some (su, tk) ∧
      FlatStateValue.try_from_slice kv.2 = some (.Ref r.value_hash len) ∧
      len ≤ INLINE_DISK_VALUE_THRESHOLD ∧ r.shard_uid = su := by
  unfold reqOf at h
  cases hdk : decode_flat_state_db_key kv.1 with
  | none => rw [hdk] at h; cases h
  | some sutk =>
      obtain ⟨su, tk⟩ := sutk
      rw [hdk] at h
      cases hdec : FlatStateValue.try_from_slice kv.2 with
      | none => rw [hdec] at h; cases h
      | some fsv =>
          cases fsv with
          | Inlined bytes => rw [hdec] at h; cases h
          | Ref hash length =>
              rw [hdec] at h
              simp only at h
              split_ifs at h with hle
              have hr : r = ⟨su, hash⟩ := by injection h with h; exact h.symm
              subst hr
              refine ⟨su, tk, length, rfl, ?_, hle, rfl⟩
              set_option linter.unnecessarySimpa false in
              simpa using hdec

lemma sel_inRange (b : Store)
    (hpb : (b.map Prod.fst).Pairwise (fun x y => lexLt x y = true))
    {k : Bytes} (hk : k ∈ b.filterMap selKey) :
    ∃ mn mx, (scanBatch b).min_key = some mn ∧ (scanBatch b).max_key = some mx ∧
      inRangeOpt (some mn) (some (mx ++ [0])) k = true := by
  have hne : b.filterMap selKey ≠ [] := List.ne_nil_of_mem hk
  obtain ⟨mn, skt, hsel⟩ := List.exists_cons_of_ne_nil hne
  obtain ⟨mx, hmx⟩ : ∃ mx, (b.filterMap selKey).getLast? = some mx := by
    rw [hsel, List.getLast?_cons]
    exact ⟨_, rfl⟩
  have hselP : (b.filterMap selKey).Pairwise (fun x y => lexLt x y = true) :=
    List.Pairwise.sublist (selKey_sublist b) hpb
  refine ⟨mn, mx, by rw [scanBatch_min_key, hsel]; rfl,
    by rw [scanBatch_max_key, hmx], ?_⟩
  have h1 : lexLt k mn = false := sorted_head_min hselP hk (by rw [hsel]; rfl)
  have h2 : lexLt mx k = false := sorted_getLast_max hselP hk hmx
  simp [inRangeOpt, h1, lexLt_append_zero, h2]

lemma flatten_map_batchApply_keys (trie : TrieStorage) :
    ∀ L : List Store,
      ((L.map (batchApply trie)).flatten).map Prod.fst = L.flatten.map Prod.fst := by
  intro L
  induction L with
  | nil => rfl
  | cons b L ih =>
      simp only [List.map_cons, List.flatten_cons, List.map_append, batchApply_keys, ih]

/-- C1 (amended): over a sorted store in which every `Ref` entry has a
well-formed key, a backing trie entry of exactly its recorded length, and
the trie storage is content-addressed (a hash determines its bytes), the
migration inlines every `Ref` of length at most the threshold with its
referenced bytes and leaves every longer `Ref` entry byte-for-byte
unchanged. -/
theorem c1_full_migration_inlines_eligible_refs (trie : TrieStorage) (store : Store)
    (batch_size : Nat) (hbs : 0 < batch_size)
    (hsorted : (store.map Prod.fst).Pairwise (fun x y => lexLt x y = true))
    (href : ∀ kv ∈ store, ∀ hash len,
      FlatStateValue.try_from_slice kv.2 = some (.Ref hash len) →
      ∃ su tk bs, decode_flat_state_db_key kv.1 = some (su, tk) ∧
        trie su hash = some bs ∧ bs.length = len)
    (hcontent : ∀ su su' hash b b', trie su hash = some b → trie su' hash = some b' →
      b = b') :
    ∀ kv ∈ store, ∀ hash len,
      FlatStateValue.try_from_slice kv.2 = some (.Ref hash len) →
      (len ≤ INLINE_DISK_VALUE_THRESHOLD →
        ∀ su tk, decode_flat_state_db_key kv.1 = some (su, tk) →
        ∃ bs, trie su hash = some bs ∧
          lookupStore (inline_flat_state_values trie store batch_size) kv.1 =
            some ((FlatStateValue.Inlined bs).try_to_vec)) ∧
      (INLINE_DISK_VALUE_THRESHOLD < len →
        lookupStore (inline_flat_state_values trie store batch_size) kv.1 =
          some kv.2) := by
  intro kv hkv hash len hdec
  rw [inline_flat_state_values_eq trie store batch_size hbs hsorted]
  have hndfinal : ((((toBatches batch_size store).map (batchApply trie)).flatten).map
      Prod.fst).Nodup := by
    rw [flatten_map_batchApply_keys,
      toBatches_flatten batch_size hbs store.length store (le_refl _)]
    exact pairwise_lexLt_nodup hsorted
  obtain ⟨b, hbmem, hkvb⟩ : ∃ b, b ∈ toBatches batch_size store ∧ kv ∈ b := by
    have : kv ∈ (toBatches batch_size store).flatten := by
      rw [toBatches_flatten batch_size hbs store.length store (le_refl _)]
      exact hkv
    obtain ⟨b, hb, hkb⟩ := List.mem_flatten.mp this
    exact ⟨b, hb, hkb⟩
  have hbsub : b.Sublist store :=
    toBatches_sublist batch_size hbs store.length store b (le_refl _) hbmem
  have hpb : (b.map Prod.fst).Pairwise (fun x y => lexLt x y = true) :=
    List.Pairwise.sublist (hbsub.map Prod.fst) hsorted
  have hmemfinal : (kv.1, batchValue trie b kv) ∈
      ((toBatches batch_size store).map (batchApply trie)).flatten :=
    List.mem_flatten.mpr ⟨batchApply trie b, List.mem_map.mpr ⟨b, hbmem, rfl⟩,
      List.mem_map.mpr ⟨kv, hkvb, rfl⟩⟩
  have hlook : lookupStore (((toBatches batch_size store).map (batchApply trie)).flatten)
      kv.1 = some (batchValue trie b kv) :=
    lookupStore_of_mem_nodup hmemfinal hndfinal
  constructor
  · intro hle su tk hdk
    obtain ⟨su0, tk0, bs, hdk0, htr, hlen⟩ := href kv hkv hash len hdec
    rw [hdk] at hdk0
    injection hdk0 with h0
    injection h0 with h1 h2
    subst h1
    subst h2
    refine ⟨bs, htr, ?_⟩
    rw [hlook]
    have hreq : reqOf kv = some ⟨su, hash⟩ := by
      unfold reqOf
      rw [hdk, hdec]
      simp [hle]
    have hrmem : (⟨su, hash⟩ : ReadValueRequest) ∈ (scanBatch b).requests := by
      rw [scanBatch_requests]
      exact List.mem_filterMap.mpr ⟨kv, hkvb, hreq⟩
    have hlkm : lookupA (receive_all trie (scanBatch b).requests).1 hash = some bs := by
      refine receive_all_lookup_of_mem trie (scanBatch b).requests []
        ⟨su, hash⟩ bs ?_ hrmem htr
      intro r hr hh b0 htr0
      exact hcontent r.shard_uid su hash b0 bs htr0 htr
    have hmne : ((receive_all trie (scanBatch b).requests).1).isEmpty = false := by
      cases hq : (receive_all trie (scanBatch b).requests).1 with
      | nil => rw [hq] at hlkm; cases hlkm
      | cons p q => rfl
    have hkin : kv.1 ∈ b.filterMap selKey :=
      List.mem_filterMap.mpr ⟨kv, hkvb, by simp [selKey, hreq]⟩
    obtain ⟨mn, mx, hmin, hmax, hin⟩ := sel_inRange b hpb hkin
    unfold batchValue
    rw [if_neg (by rw [hmne]; exact Bool.false_ne_true), hmin, hmax]
    simp only [Option.map_some']
    unfold commitValue
    rw [if_pos hin]
    simp [hdec, hlkm]
  · intro hgt
    rw [hlook]
    unfold batchValue
    cases hmne : ((receive_all trie (scanBatch b).requests).1).isEmpty with
    | true => rw [if_pos hmne]
    | false =>
        rw [if_neg (by rw [hmne]; exact Bool.false_ne_true)]
        unfold commitValue
        by_cases hin : inRangeOpt (scanBatch b).min_key
            ((scanBatch b).max_key.map (fun v => v ++ [0])) kv.1 = true
        · rw [if_pos hin]
          cases hlk : lookupA (receive_all trie (scanBatch b).requests).1 hash with
          | none => simp [hdec, hlk]
          | some val =>
              exfalso
              rcases receive_all_loop_lookup_some trie (scanBatch b).requests [] hash val
                  hlk with ⟨r, hr, hh, htr⟩ | habs
              · rw [scanBatch_requests] at hr
                obtain ⟨kv', hkv', hreq'⟩ := List.mem_filterMap.mp hr
                obtain ⟨su', tk', len', hdk', hdec', hle', hsu'⟩ := reqOf_eq_some hreq'
                obtain ⟨su2, tk2, bs', hdk2, htr2, hlen2⟩ :=
                  href kv' (hbsub.subset hkv') r.value_hash len' hdec'
                rw [hdk'] at hdk2
                injection hdk2 with h0
                injection h0 with h1 _
                subst h1
                rw [hh] at htr2
                rw [hsu'] at htr
                obtain ⟨su0, tk0, bs0, hdk0, htr0, hlen0⟩ := href kv hkv hash len hdec
                have hbs0 : bs' = bs0 := hcontent su' su0 hash bs' bs0 htr2 htr0
                have hlb : bs'.length = bs0.length := by rw [hbs0]
                omega
              · cases habs
        · rw [if_neg hin]

set_option maxRecDepth 8000 in
/-- C1 counterexample: in a sorted store in which every `Ref` entry's hash
resolves in the trie store — the claim's stated precondition — an entry of
length above the threshold that shares its hash with an eligible entry in
the same committed range is rewritten by the migration, so it is not
byte-for-byte unchanged as the claim states. -/
theorem c1_counterexample :
    (∀ kv ∈ c1CexStore, ∀ hash len,
      FlatStateValue.try_from_slice kv.2 = some (.Ref hash len) →
      ∃ su tk, decode_flat_state_db_key kv.1 = some (su, tk) ∧
        (c1Trie su hash).isSome = true) ∧
    (c1CexStore.map Prod.fst).Pairwise (fun x y => lexLt x y = true) ∧
    INLINE_DISK_VALUE_THRESHOLD <
      (INLINE_DISK_VALUE_THRESHOLD + 1 : Nat) ∧
    lookupStore (inline_flat_state_values c1Trie c1CexStore 4) (c1Shard ++ [1]) =
      some ((FlatStateValue.Inlined [9]).try_to_vec) ∧
    (FlatStateValue.Inlined [9]).try_to_vec ≠
      (FlatStateValue.Ref c1HashA (INLINE_DISK_VALUE_THRESHOLD + 1)).try_to_vec := by
  refine ⟨?_, by decide, by decide, by decide, by decide⟩
  intro kv hkv hash len hdec
  simp only [c1CexStore, List.mem_cons, List.not_mem_nil, or_false] at hkv
  rcases hkv with rfl | rfl | rfl
  · rw [show FlatStateValue.try_from_slice
        ((FlatStateValue.Ref c1HashA 1).try_to_vec) =
        some (.Ref c1HashA 1) from by decide] at hdec
    injection hdec with hdec
    cases hdec
    exact ⟨c1Shard, [0], by decide, by decide⟩
  · rw [show FlatStateValue.try_from_slice
        ((FlatStateValue.Ref c1HashA (INLINE_DISK_VALUE_THRESHOLD + 1)).try_to_vec) =
        some (.Ref c1HashA (INLINE_DISK_VALUE_THRESHOLD + 1)) from by decide] at hdec
    injection hdec with hdec
    cases hdec
    exact ⟨c1Shard, [1], by decide, by decide⟩
  · rw [show FlatStateValue.try_from_slice
        ((FlatStateValue.Ref c1HashB 1).try_to_vec) =
        some (.Ref c1HashB 1) from by decide] at hdec
    injection hdec with hdec
    cases hdec
    exact ⟨c1Shard, [2], by decide, by decide⟩

set_option maxRecDepth 8000 in
theorem c1_witness :
    ∃ bs, c1Trie c1Shard c1HashA = some bs ∧
      lookupStore (inline_flat_state_values c1Trie c1WitStore 4) (c1Shard ++ [0]) =
        some ((FlatStateValue.Inlined bs).try_to_vec) := by
  refine (c1_full_migration_inlines_eligible_refs c1Trie c1WitStore 4 (by decide)
    (by decide) ?_ ?_ (c1Shard ++ [0], (FlatStateValue.Ref c1HashA 1).try_to_vec)
    (by decide) c1HashA 1
    (by decide)).1 (by decide) c1Shard [0] (by decide)
  · intro kv hkv hash len hdec
    simp only [c1WitStore, List.mem_cons, List.not_mem_nil, or_false] at hkv
    subst hkv
    rw [show FlatStateValue.try_from_slice
        ((FlatStateValue.Ref c1HashA 1).try_to_vec) =
        some (.Ref c1HashA 1) from by decide] at hdec
    injection hdec with hdec
    cases hdec
    exact ⟨c1Shard, [0], [9], by decide, by decide, by decide⟩
  · intro su su' hash b b' h1 h2
    unfold c1Trie at h1 h2
    split_ifs at h1 h2 <;> (injection h1 with h1; injection h2 with h2; rw [← h1, ← h2])

lemma try_from_slice_inlined_ne_ref (val : Bytes) (hash : Bytes) (len : Nat) :
    FlatStateValue.try_from_slice ((FlatStateValue.Inlined val).try_to_vec) ≠
      some (.Ref hash len) := by
  intro h
  unfold FlatStateValue.try_to_vec toLE4 at h
  simp only [List.cons_append, List.nil_append] at h
  rw [FlatStateValue.try_from_slice] at h
  split_ifs at h
  injection h with h
  cases h

lemma batchApply_requests_fail (trie : TrieStorage) (b : Store)
    (hpb : (b.map Prod.fst).Pairwise (fun x y => lexLt x y = true)) :
    ∀ r ∈ (scanBatch (batchApply trie b)).requests,
      trie r.shard_uid r.value_hash = none := by
  intro r hr
  rw [scanBatch_requests] at hr
  obtain ⟨kv', hkv', hreq'⟩ := List.mem_filterMap.mp hr
  obtain ⟨kv, hkv, rfl⟩ := List.mem_map.mp hkv'
  obtain ⟨su', tk', len', hdk', hdec', hle', hsu'⟩ := reqOf_eq_some hreq'
  have hdk : decode_flat_state_db_key kv.1 = some (su', tk') := hdk'
  have hdecv : FlatStateValue.try_from_slice (batchValue trie b kv) =
      some (.Ref r.value_hash len') := hdec'
  rw [hsu']
  cases hm : ((receive_all trie (scanBatch b).requests).1).isEmpty with
  | true =>
      have hbv : batchValue trie b kv = kv.2 := by
        unfold batchValue
        rw [if_pos hm]
      rw [hbv] at hdecv
      have hreq : reqOf kv = some ⟨su', r.value_hash⟩ := by
        unfold reqOf
        rw [hdk, hdecv]
        simp [hle']
      have hmem : (⟨su', r.value_hash⟩ : ReadValueRequest) ∈ (scanBatch b).requests := by
        rw [scanBatch_requests]
        exact List.mem_filterMap.mpr ⟨kv, hkv, hreq⟩
      have hmnil : (receive_all trie (scanBatch b).requests).1 = [] := by
        cases hq : (receive_all trie (scanBatch b).requests).1 with
        | nil => rfl
        | cons p q => rw [hq] at hm; cases hm
      exact receive_all_empty_fail trie (scanBatch b).requests hmnil
        ⟨su', r.value_hash⟩ hmem
  | false =>
      have hbv : batchValue trie b kv =
          commitValue (receive_all trie (scanBatch b).requests).1 (scanBatch b).min_key
            ((scanBatch b).max_key.map (fun v => v ++ [0])) kv.1 kv.2 := by
        unfold batchValue
        rw [if_neg (by rw [hm]; exact Bool.false_ne_true)]
      rw [hbv] at hdecv
      unfold commitValue at hdecv
      by_cases hin : inRangeOpt (scanBatch b).min_key
          ((scanBatch b).max_key.map (fun v => v ++ [0])) kv.1 = true
      · rw [if_pos hin] at hdecv
        cases hdec0 : FlatStateValue.try_from_slice kv.2 with
        | none => simp [hdec0] at hdecv
        | some fsv =>
            cases fsv with
            | Inlined bytes => simp [hdec0] at hdecv
            | Ref hash0 len0 =>
                cases hlk : lookupA (receive_all trie (scanBatch b).requests).1 hash0 with
                | some val =>
                    simp only [hdec0, hlk] at hdecv
                    exact absurd hdecv (try_from_slice_inlined_ne_ref val r.value_hash len')
                | none =>
                    simp only [hdec0, hlk] at hdecv
                    injection hdecv with hdecv
                    injection hdecv with hh hl
                    subst hh
                    have hle0 : len0 ≤ INLINE_DISK_VALUE_THRESHOLD := by omega
                    have hreq : reqOf kv = some ⟨su', r.value_hash⟩ := by
                      unfold reqOf
                      rw [hdk, hdec0]
                      simp [hle0]
                    have hmem : (⟨su', r.value_hash⟩ : ReadValueRequest) ∈
                        (scanBatch b).requests := by
                      rw [scanBatch_requests]
                      exact List.mem_filterMap.mpr ⟨kv, hkv, hreq⟩
                    exact receive_all_lookup_none trie (scanBatch b).requests
                      r.value_hash hlk ⟨su', r.value_hash⟩ hmem rfl
      · rw [if_neg hin] at hdecv
        have hreq : reqOf kv = some ⟨su', r.value_hash⟩ := by
          unfold reqOf
          rw [hdk, hdecv]
          simp [hle']
        have hkin : kv.1 ∈ b.filterMap selKey :=
          List.mem_filterMap.mpr ⟨kv, hkv, by simp [selKey, hreq]⟩
        obtain ⟨mn, mx, hmin, hmax, hinr⟩ := sel_inRange b hpb hkin
        rw [hmin, hmax] at hin
        simp only [Option.map_some'] at hin
        exact (hin hinr).elim

lemma toBatches_flatten_map (batch_size : Nat) (hbs : 0 < batch_size)
    (f : Store → Store) (hlen : ∀ b, (f b).length = b.length) :
    ∀ (n : Nat) (l : Store), l.length ≤ n →
      toBatches batch_size (((toBatches batch_size l).map f).flatten) =
        (toBatches batch_size l).map f := by
  intro n
  induction n with
  | zero =>
      intro l hl
      have : l = [] := List.length_eq_zero.mp (Nat.le_zero.mp hl)
      subst this
      rfl
  | succ n ih =>
      intro l hl
      cases hln : l with
      | nil => rfl
      | cons x xs =>
          rw [← hln]
          have hlne : l ≠ [] := by rw [hln]; simp
          rw [toBatches_cons batch_size hbs l hlne, List.map_cons, List.flatten_cons]
          have htake_ne : f (l.take batch_size) ≠ [] := by
            intro h
            have := hlen (l.take batch_size)
            rw [h] at this
            have hlt : 0 < (l.take batch_size).length := by
              rw [List.length_take, hln]
              simp
              omega
            rw [← this] at hlt
            simp at hlt
          have happne : f (l.take batch_size) ++
              ((toBatches batch_size (l.drop batch_size)).map f).flatten ≠ [] := by
            intro h
            exact htake_ne (List.append_eq_nil.mp h).1
          rw [toBatches_cons batch_size hbs _ happne]
          have hdroplen : (l.drop batch_size).length ≤ n := by
            rw [hln] at hl ⊢
            simp only [List.length_cons] at hl
            simp [List.length_drop]
            omega
          by_cases hble : batch_size ≤ l.length
          · have hflen : (f (l.take batch_size)).length = batch_size := by
              rw [hlen, List.length_take]
              omega
            rw [List.take_left' hflen, List.drop_left' hflen]
            rw [ih (l.drop batch_size) hdroplen]
          · have hdrop : l.drop batch_size = [] :=
              List.drop_eq_nil_of_le (by omega)
            rw [hdrop]
            have hflen2 : (f (l.take batch_size)).length ≤ batch_size := by
              rw [hlen, List.length_take]
              omega
            rw [show toBatches batch_size ([] : Store) = [] from rfl]
            simp only [List.map_nil, List.flatten_nil, List.append_nil]
            rw [List.take_of_length_le hflen2, List.drop_eq_nil_of_le hflen2]
            rfl

lemma foldl_runBatch_nop (trie : TrieStorage) :
    ∀ (chunks : List Store) (cur : Store),
      (∀ b ∈ chunks, (receive_all trie (scanBatch b).requests).1 = []) →
      chunks.foldl (runBatch trie) cur = cur := by
  intro chunks
  induction chunks with
  | nil => intro cur _; rfl
  | cons b t ih =>
      intro cur hf
      rw [List.foldl_cons]
      rw [show runBatch trie cur b = cur from by
        simp [runBatch, hf b (List.mem_cons_self b t)]]
      exact ih cur (fun b' hb' => hf b' (List.mem_cons_of_mem _ hb'))

/-- C9: running the migration a second time over the (sorted) column
produced by a completed first run is a no-op: the second run's resolved
mapping is empty for every batch — its scan selects only `Ref` entries of
eligible length, which after the first run are exactly the unresolvable
ones — so the commit phase never runs and no key is written. -/
theorem c9_second_migration_is_noop (trie : TrieStorage) (store : Store)
    (batch_size : Nat) (hbs : 0 < batch_size)
    (hsorted : (store.map Prod.fst).Pairwise (fun x y => lexLt x y = true)) :
    inline_flat_state_values trie (inline_flat_state_values trie store batch_size)
        batch_size =
      inline_flat_state_values trie store batch_size ∧
    ∀ b ∈ toBatches batch_size (inline_flat_state_values trie store batch_size),
      (receive_all trie (scanBatch b).requests).1 = [] := by
  have hrun := inline_flat_state_values_eq trie store batch_size hbs hsorted
  have hchunks : toBatches batch_size (inline_flat_state_values trie store batch_size) =
      (toBatches batch_size store).map (batchApply trie) := by
    rw [hrun]
    exact toBatches_flatten_map batch_size hbs (batchApply trie)
      (batchApply_length trie) store.length store (le_refl _)
  have hfail : ∀ b2 ∈ toBatches batch_size (inline_flat_state_values trie store batch_size),
      (receive_all trie (scanBatch b2).requests).1 = [] := by
    intro b2 hb2
    rw [hchunks] at hb2
    obtain ⟨b, hb, rfl⟩ := List.mem_map.mp hb2
    have hbsub := toBatches_sublist batch_size hbs store.length store b (le_refl _) hb
    have hpb : (b.map Prod.fst).Pairwise (fun x y => lexLt x y = true) :=
      List.Pairwise.sublist (hbsub.map Prod.fst) hsorted
    exact receive_all_loop_all_fail trie _ [] (batchApply_requests_fail trie b hpb)
  refine ⟨?_, hfail⟩
  show (toBatches batch_size (inline_flat_state_values trie store batch_size)).foldl
      (runBatch trie) (inline_flat_state_values trie store batch_size) =
    inline_flat_state_values trie store batch_size
  exact foldl_runBatch_nop trie _ _ hfail

set_option maxRecDepth 8000 in
theorem c9_witness :
    inline_flat_state_values c1Trie (inline_flat_state_values c1Trie c9WitStore 4) 4 =
      inline_flat_state_values c1Trie c9WitStore 4 :=
  (c9_second_migration_is_noop c1Trie c9WitStore 4 (by decide) (by decide)).1

end NearStore
